import Mathlib

/-!
Shallow embedding of src/mossy/plugins/ferreira.py: the Ferreira-style
semantic-similarity comparer.  Python floats are modelled as rationals,
the relational store as explicit lists of rows, and the shared SQL
cursor as pure list filtering.  Fallible Python code (dynamic typing,
dictionary access, division) is modelled with Except.
-/

namespace Mossy

/-- Python-level error kinds that the code under analysis can surface.
`invalidInputShape` is the error kind named by the specification's
error taxonomy; it is included so that statements about it can be made. -/
inductive Err where
  | typeError
  | indexError
  | unknownEntity
  | attributeError
  | zeroDivisionError
  | invalidInputShape
  deriving DecidableEq, Repr

/-- A fragment of the Python value universe large enough to express the
input shapes `convert_input` distinguishes: strings, (nested) lists and
non-iterable scalars (represented by integers). -/
inductive PyVal where
  | str (s : String)
  | list (l : List PyVal)
  | int (n : Int)

/-- Entity kinds passed to the identifier-resolution utility. -/
inductive EntityKind where
  | objectProperty
  | concept
  deriving DecidableEq, Repr

/-- Modelled from the spec: `mossy.utils.get_id` is not under src/.
Per section 6, identifier resolution maps an IRI string and an entity
kind to an integer id and fails with `UnknownEntity` when the IRI is
not found.  The resolution table is abstracted as a function. -/
structure Env where
  resolve : EntityKind → String → Option Nat

/-- Modelled from the spec: `mossy.utils.get_id` is not under src/.
Resolves a Python value to a database id; a non-string argument fails
the way Python's dynamic typing would (a type error). -/
def get_id (env : Env) (kind : EntityKind) (v : PyVal) : Except Err Nat :=
  match v with
  | .str s =>
    match env.resolve kind s with
    | some i => .ok i
    | none => .error .unknownEntity
  | _ => .error .typeError

/-- Modelled from the spec: `mossy.utils.to_seq` is not under src/.
Per section 4.4, a list element is either a concept (wrapped into a
singleton chain) or an already-formed chain (returned unchanged). -/
def to_seq (v : PyVal) : List PyVal :=
  match v with
  | .list l => l
  | v => [v]

/-- A Python list comprehension over fallible element conversions:
left to right, the first raised error aborts the whole comprehension. -/
def mapME {A B : Type} (f : A → Except Err B) : List A → Except Err (List B)
  | [] => .ok []
  | a :: as => do
    let b ← f a
    let bs ← mapME f as
    pure (b :: bs)

/-- `chain_to_ids` from ferreira.py: `chain[:-1]` are the properties,
`chain[-1]` is the concept; indexing an empty chain raises IndexError. -/
def chain_to_ids (env : Env) (chain : List PyVal) : Except Err (List Nat) :=
  match chain.getLast? with
  | none => .error .indexError
  | some concept => do
    let props ← mapME (get_id env .objectProperty) chain.dropLast
    let c ← get_id env .concept concept
    pure (props ++ [c])

/-- `convert_input` from ferreira.py: a string becomes the single chain
`[[item]]`; a list has each element normalized by `to_seq`; any other
value fails when Python iterates over it (a type error). -/
def convert_input (env : Env) (item : PyVal) : Except Err (List (List Nat)) :=
  match item with
  | .str s => mapME (chain_to_ids env) [[PyVal.str s]]
  | .list xs => mapME (chain_to_ids env) (xs.map to_seq)
  | _ => .error .typeError

/-- Whether a Python value is a string. -/
def isStr (v : PyVal) : Bool :=
  match v with
  | .str _ => true
  | _ => false

/-- A valid list element per the specification (section 4.4): a concept
string or an already-formed chain, i.e. a non-empty list of strings. -/
def validElem (v : PyVal) : Bool :=
  match v with
  | .str _ => true
  | .list l => !l.isEmpty && l.all isStr
  | _ => false

/-- The three input shapes accepted by the specification (section 4.4):
a single concept string, a list of concept strings, or a list of
property-chains. -/
def validShape (item : PyVal) : Bool :=
  match item with
  | .str _ => true
  | .list xs => xs.all validElem
  | _ => false

/-- A row of the `existential_relations` table: `(chain, start, end,
distance)`.  The `chain` column (a comma-separated id string in SQL,
parsed by `int(i) for i in props.split(',')`) is modelled directly as
the list of property ids it encodes.  The `end` column is called `stop`
because `end` is reserved in Lean. -/
structure ExRow where
  start : Nat
  chain : List Nat
  stop : Nat
  distance : Nat
  deriving DecidableEq, Repr

/-- A row of the `hierarchy` table: `(subclass, superclass, distance)`. -/
structure HRow where
  sub : Nat
  sup : Nat
  distance : Nat
  deriving DecidableEq, Repr

/-- The relational store, read-only from the comparer's perspective. -/
structure Store where
  existential : List ExRow
  hierarchy : List HRow
  deriving DecidableEq, Repr

/-- Store invariant stated by the specification (section 3): every
relation edge, existential or hierarchy, has distance ≥ 1. -/
def WFStore (store : Store) : Prop :=
  (∀ r ∈ store.existential, 1 ≤ r.distance) ∧ (∀ r ∈ store.hierarchy, 1 ≤ r.distance)

instance (store : Store) : Decidable (WFStore store) := by
  unfold WFStore
  exact inferInstance

/-- Association-list lookup with decidable key equality (first match). -/
def alookup {κ : Type} [DecidableEq κ] : List (κ × ℚ) → κ → Option ℚ
  | [], _ => none
  | (a, b) :: rest, k => if a = k then some b else alookup rest k

/-- The configured state of a `ferreira` instance after `__init__`.
The weight table's keys are `Option Nat`: `none` is the Python `None`
sentinel under which `__init__` stores the hierarchy weight. -/
structure Config where
  distance_threshold : Nat
  weight_threshold : ℚ
  property_weights : List (Option Nat × ℚ)
  default_weight : ℚ
  ic : Option (Nat → ℚ)
  discover_subclasses : Bool

/-- `get_properties_weight`: the product over the property list of the
table weight, defaulting to `default_weight` for unlisted properties. -/
def get_properties_weight (cfg : Config) (props : List Nat) : ℚ :=
  props.foldl (fun acc p => acc * (alookup cfg.property_weights (some p)).getD cfg.default_weight) 1

/-- `get_ic`: 1 when no IC calculator is configured, otherwise the
external service's value. -/
def get_ic (cfg : Config) (c : Nat) : ℚ :=
  match cfg.ic with
  | none => 1
  | some f => f c

/-- `self.property_weights[None]`, the hierarchy ("is-a") weight.
`__init__` always stores this key, so the direct dictionary access in
the source never raises; an absent key is modelled as 0. -/
def hierarchyWeight (cfg : Config) : ℚ :=
  (alookup cfg.property_weights none).getD 0

/-- The `get_relations_query`: existential rows with the given start
concept and distance at most the remaining budget (which may be
negative, in which case no row qualifies). -/
def relationRows (store : Store) (c : Nat) (maxd : ℤ) : List ExRow :=
  store.existential.filter (fun r => decide (r.start = c ∧ (r.distance : ℤ) ≤ maxd))

/-- The `get_hierarchy_query`.  Without subclass discovery: superclasses
of `c` with distance ≤ budget.  With subclass discovery the source's SQL
is a UNION of superclasses of `c` at distance exactly 1 and subclasses
of `c` with distance ≤ budget (UNION deduplicates result pairs). -/
def hierarchyRows (store : Store) (disc : Bool) (c : Nat) (maxd : ℤ) : List (Nat × Nat) :=
  if disc then
    ((store.hierarchy.filter (fun r => decide (r.sub = c ∧ r.distance = 1))).map
        (fun r => (r.sup, r.distance)) ++
      (store.hierarchy.filter (fun r => decide (r.sup = c ∧ (r.distance : ℤ) ≤ maxd))).map
        (fun r => (r.sub, r.distance))).dedup
  else
    (store.hierarchy.filter (fun r => decide (r.sub = c ∧ (r.distance : ℤ) ≤ maxd))).map
      (fun r => (r.sup, r.distance))

/-- A frontier entry of the expansion work list: concept id, distance
travelled to reach it, and weight of the chain reaching it. -/
abbrev Entry : Type := Nat × Nat × ℚ

/-- A neighborhood: association list from concept id to weight, with
distinct keys (the Python defaultdict). -/
abbrev Neigh : Type := List (Nat × ℚ)

/-- Neighborhood lookup with the defaultdict's 0 default. -/
def lookupD (m : Neigh) (c : Nat) : ℚ :=
  (alookup m c).getD 0

/-- The key list of a neighborhood. -/
def keysOf (m : Neigh) : List Nat :=
  m.map Prod.fst

/-- `result[c] = max(result[c], w)` on a defaultdict(float): updates an
existing entry in place, or appends a new entry whose prior value is
the default 0. -/
def recordMax : Neigh → Nat → ℚ → Neigh
  | [], c, w => [(c, max 0 w)]
  | (a, b) :: rest, c, w =>
    if a = c then (a, max b w) :: rest else (a, b) :: recordMax rest c w

/-- The entries pushed onto the work list when the loop body processes
entry `e = (c, d, w)`: existential neighbors first, then (unless the
hierarchy weight is falsy, i.e. 0, in which case the source `continue`s
past it) hierarchy neighbors.  An entry is pushed only when its new
distance stays within `distance_threshold` and its new weight is at
least `weight_threshold`. -/
def pushesOf (cfg : Config) (store : Store) (e : Entry) : List Entry :=
  let c := e.1
  let d := e.2.1
  let w := e.2.2
  let maxd : ℤ := (cfg.distance_threshold : ℤ) - (d : ℤ)
  let ex := (relationRows store c maxd).filterMap (fun r =>
    let cw := w * get_properties_weight cfg r.chain
    let cd := d + r.distance
    if cd ≤ cfg.distance_threshold ∧ cfg.weight_threshold ≤ cw then some (r.stop, cd, cw)
    else none)
  if hierarchyWeight cfg = 0 then ex
  else
    ex ++ (hierarchyRows store cfg.discover_subclasses c maxd).filterMap (fun rel =>
      let cd := d + rel.2
      let cw := w * hierarchyWeight cfg ^ rel.2
      if cd ≤ cfg.distance_threshold ∧ cfg.weight_threshold ≤ cw then some (rel.1, cd, cw)
      else none)

/-- The reference while-loop of `find_and_weigh_neighbors` in
last-in-first-out order.  The head of the Lean list models the end of
the Python list (the stack top), so Python's `todo.pop()` is taking the
head here and appending pushes is prepending them reversed.  Fuel makes
the recursion structural; the termination theorem shows a computable
amount of fuel always suffices on well-formed stores. -/
def expandLoop (cfg : Config) (store : Store) : Nat → List Entry → Neigh → Option Neigh
  | _, [], res => some res
  | 0, _ :: _, _ => none
  | fuel + 1, e :: rest, res =>
    expandLoop cfg store fuel ((pushesOf cfg store e).reverse ++ rest)
      (recordMax res e.1 e.2.2)

/-- Generalization of the work-list loop used to state order-invariance
(spec section 4.5: traversal order is unconstrained).  Each step removes
the entry at the scheduled index (taken modulo the current frontier
size) instead of the stack top. -/
def expandLoopAt (cfg : Config) (store : Store) : List Nat → List Entry → Neigh → Option Neigh
  | _, [], res => some res
  | [], _ :: _, _ => none
  | i :: sched, t :: ts, res =>
    let todo := t :: ts
    let j := i % todo.length
    let e := todo.getD j t
    expandLoopAt cfg store sched ((pushesOf cfg store e).reverse ++ todo.eraseIdx j)
      (recordMax res e.1 e.2.2)

/-- Upper bound on how many entries one loop step can push: every
existential row, plus every hierarchy row considered by each of the two
UNION branches. -/
def pushBound (store : Store) : Nat :=
  store.existential.length + 2 * store.hierarchy.length

/-- Termination measure contribution of one frontier entry at distance
`d`. -/
def entryFuel (cfg : Config) (store : Store) (d : Nat) : Nat :=
  (pushBound store + 1) ^ (cfg.distance_threshold + 1 - d)

/-- Termination measure of a whole work list. -/
def todoFuel (cfg : Config) (store : Store) (todo : List Entry) : Nat :=
  (todo.map (fun e => entryFuel cfg store e.2.1)).sum

/-- The seed entry for one chain: its terminal concept, a starting
distance equal to the number of properties, and the chain weight
(property-weight product times information content). -/
def seedOf (cfg : Config) (chain : List Nat) : Entry :=
  (chain.getLastD 0, chain.length - 1,
    get_properties_weight cfg chain.dropLast * get_ic cfg (chain.getLastD 0))

/-- `find_and_weigh_neighbors`: run the reference loop from the seed,
with enough fuel for any well-formed store. -/
def find_and_weigh_neighbors (cfg : Config) (store : Store) (chain : List Nat) : Neigh :=
  let seed := seedOf cfg chain
  (expandLoop cfg store (entryFuel cfg store seed.2.1) [seed] []).getD []

/-- `construct_neighborhood`: merge the expansions of all of an item's
chains with elementwise max. -/
def construct_neighborhood (cfg : Config) (store : Store) (chains : List (List Nat)) : Neigh :=
  chains.foldl (fun res ch =>
    (find_and_weigh_neighbors cfg store ch).foldl (fun r p => recordMax r p.1 p.2) res) []

/-- `inter`: the fuzzy intersection, summing `w1 * n2.get(c, 0)` over
the items of `n1`. -/
def inter (n1 n2 : Neigh) : ℚ :=
  (n1.map (fun p => p.2 * lookupD n2 p.1)).sum

/-- The key set `set(n1).union(n2)` iterated by `union`. -/
def unionKeys (n1 n2 : Neigh) : List Nat :=
  (n1.map Prod.fst ++ n2.map Prod.fst).dedup

/-- `union`: the fuzzy union, summing `w1 + w2 - w1*w2` over the union
of the key sets. -/
def union (n1 n2 : Neigh) : ℚ :=
  ((unionKeys n1 n2).map (fun c => lookupD n1 c + lookupD n2 c - lookupD n1 c * lookupD n2 c)).sum

/-- `compare`: normalize both items, build both neighborhoods, return
intersection over union.  A zero denominator is Python's
ZeroDivisionError. -/
def compare (env : Env) (cfg : Config) (store : Store) (one two : PyVal) : Except Err ℚ := do
  let chains1 ← convert_input env one
  let chains2 ← convert_input env two
  let n1 := construct_neighborhood cfg store chains1
  let n2 := construct_neighborhood cfg store chains2
  let i := inter n1 n2
  let u := union n1 n2
  if u = 0 then throw Err.zeroDivisionError else pure (i / u)

/-- The `default_weight` argument of `__init__`: either a plain scalar
or a `LogScale` frequency-derivation directive (Python passes the
LogScale object itself). -/
inductive DWArg where
  | scalar (w : ℚ)
  | logScale (mn mx : ℚ)

/-- The `property_weights` argument of `__init__`: absent, a mapping of
property IRIs to weights, or (what the specification suggests is also
accepted) a `LogScale` directive. -/
inductive PWArg where
  | table (t : List (String × ℚ))
  | logScale (mn mx : ℚ)

/-- Python dictionary assignment `d[k] = v` on an association list:
overwrite in place, or append. -/
def dictSet : List (Option Nat × ℚ) → Option Nat → ℚ → List (Option Nat × ℚ)
  | [], k, v => [(k, v)]
  | (a, b) :: rest, k, v =>
    if a = k then (a, v) :: rest else (a, b) :: dictSet rest k v

/-- `LogScale.get_weights`: for every distinct property chain appearing
in a distance-1 existential row, the weight
`min + (max - min) * (1 - log(count) / log(total))`.  The real `math.log`
is abstracted by the parameter `logf`; the distance-1 rows of the schema
carry single-property chains, whose id (`int(prop_id)`) is the head. -/
def LogScale_get_weights (logf : Nat → ℚ) (store : Store) (mn mx : ℚ) :
    List (Option Nat × ℚ) :=
  let logTotal := logf store.existential.length
  let dist1 := store.existential.filter (fun r => decide (r.distance = 1))
  let chains := (dist1.map (fun r => r.chain)).dedup
  chains.map (fun ch =>
    (some (ch.headD 0),
      mn + (mx - mn) * (1 - logf ((dist1.filter (fun r => decide (r.chain = ch))).length) / logTotal)))

/-- `ferreira.__init__`.  A `LogScale` instance supplied as
`default_weight` populates the table from its derived weights and sets
the scalar default to 0; a `LogScale` instance supplied as
`property_weights` reaches `property_weights.items()` and fails the way
Python does on an object with no such attribute.  The hierarchy weight
is stored under the `None` key last. -/
def ferreira_init (logf : Nat → ℚ) (env : Env) (store : Store)
    (ic : Option (Nat → ℚ)) (distance_threshold : Nat) (weight_threshold : ℚ)
    (property_weights : Option PWArg) (default_weight : DWArg)
    (hierarchy_weight : ℚ) (discover_subclasses : Bool) : Except Err Config := do
  let base :=
    match default_weight with
    | .logScale mn mx => (LogScale_get_weights logf store mn mx, (0 : ℚ))
    | .scalar w => (([] : List (Option Nat × ℚ)), w)
  let tbl ←
    match property_weights with
    | none => pure base.1
    | some (.table t) =>
      t.foldlM (fun acc pw => do
        let pid ← get_id env .objectProperty (.str pw.1)
        pure (dictSet acc (some pid) pw.2)) base.1
    | some (.logScale _ _) => throw Err.attributeError
  pure { distance_threshold := distance_threshold
         weight_threshold := weight_threshold
         property_weights := dictSet tbl none hierarchy_weight
         default_weight := base.2
         ic := ic
         discover_subclasses := discover_subclasses }

/-! ### Reachability through the push relation -/

/-- One push step: `b` is among the entries pushed when processing `a`. -/
def StepsTo (cfg : Config) (store : Store) (a b : Entry) : Prop :=
  b ∈ pushesOf cfg store a

/-- All entries reachable from a frontier entry by repeated pushes. -/
def ReachStar (cfg : Config) (store : Store) : Entry → Entry → Prop :=
  Relation.ReflTransGen (StepsTo cfg store)

/-- Fold maximum over a list of rationals, starting from the
defaultdict's 0. -/
def qmax (l : List ℚ) : ℚ := l.foldr max 0

/-! ### Concrete data used to instantiate the theorems -/

/-- A tiny resolution environment: concept "A" is id 0, "B" is id 1. -/
def mossyEnv : Env :=
  ⟨fun _ s => if s = "A" then some 0 else if s = "B" then some 1 else none⟩

/-- A configuration with the source's default thresholds, hierarchy
weight 4/5 and no IC adapter. -/
def mossyCfg : Config :=
  { distance_threshold := 3
    weight_threshold := 3/10
    property_weights := [(none, 4/5)]
    default_weight := 7/10
    ic := none
    discover_subclasses := false }

/-- A store with a single hierarchy edge: concept 0 has superclass 1 at
distance 1. -/
def mossyStore : Store := ⟨[], [⟨0, 1, 1⟩]⟩

/-- A store with a single hierarchy edge at distance 2: concept 0 has
superclass 5 two is-a hops away. -/
def hierStore : Store := ⟨[], [⟨0, 5, 2⟩]⟩

/-- A configuration whose thresholds exclude the seed entry of a long
chain: distance threshold 1 and weight threshold 2. -/
def strictCfg : Config :=
  { mossyCfg with distance_threshold := 1, weight_threshold := 2 }

/-- A configuration in which every configured weight equals 1, so a
neighborhood of an item compared with itself has weights 0 or 1 only. -/
def onesCfg : Config :=
  { mossyCfg with property_weights := [(none, 1)], default_weight := 1 }

/-! ### Basic lemmas on lookups, recording and dictionary update -/

theorem alookup_eq_none {κ : Type} [DecidableEq κ] (m : List (κ × ℚ)) (k : κ)
    (h : k ∉ m.map Prod.fst) : alookup m k = none := by
  induction m with
  | nil => rfl
  | cons p rest ih =>
    simp only [List.map_cons, List.mem_cons] at h
    push_neg at h
    simp only [alookup]
    rw [if_neg (fun hc => h.1 hc.symm)]
    exact ih h.2

theorem lookupD_eq_zero_of_not_mem (m : Neigh) (c : Nat) (h : c ∉ keysOf m) :
    lookupD m c = 0 := by
  unfold lookupD
  rw [alookup_eq_none m c h]
  rfl

theorem lookupD_nonneg_of_not_mem (m : Neigh) (c : Nat) (h : c ∉ keysOf m) :
    0 ≤ lookupD m c := le_of_eq (lookupD_eq_zero_of_not_mem m c h).symm

theorem lookupD_recordMax (m : Neigh) (c : Nat) (w : ℚ) (x : Nat) :
    lookupD (recordMax m c w) x = if x = c then max (lookupD m x) w else lookupD m x := by
  induction m with
  | nil =>
    by_cases hx : x = c
    · subst hx
      simp [recordMax, lookupD, alookup]
    · simp [recordMax, lookupD, alookup, hx, Ne.symm hx]
  | cons p rest ih =>
    obtain ⟨a, b⟩ := p
    by_cases hac : a = c
    · subst hac
      by_cases hx : x = a
      · subst hx
        simp [recordMax, lookupD, alookup]
      · simp [recordMax, lookupD, alookup, hx, Ne.symm hx]
    · by_cases hx : x = a
      · subst hx
        simp [recordMax, lookupD, alookup, hac, Ne.symm hac]
      · simp only [lookupD, alookup] at ih
        simp [recordMax, lookupD, alookup, hac, hx, Ne.symm hx, ih]

theorem mem_keysOf_recordMax (m : Neigh) (c : Nat) (w : ℚ) (x : Nat) :
    x ∈ keysOf (recordMax m c w) ↔ x = c ∨ x ∈ keysOf m := by
  induction m with
  | nil => simp [recordMax, keysOf]
  | cons p rest ih =>
    obtain ⟨a, b⟩ := p
    by_cases hac : a = c
    · subst hac
      have hrm : recordMax ((a, b) :: rest) a w = (a, max b w) :: rest := by
        simp [recordMax]
      rw [hrm]
      simp only [keysOf, List.map_cons, List.mem_cons]
      tauto
    · simp only [recordMax, if_neg hac, keysOf, List.map_cons, List.mem_cons]
      simp only [keysOf] at ih
      rw [ih]
      tauto

theorem nodup_keysOf_recordMax (m : Neigh) (c : Nat) (w : ℚ)
    (h : (keysOf m).Nodup) : (keysOf (recordMax m c w)).Nodup := by
  induction m with
  | nil => simp [recordMax, keysOf]
  | cons p rest ih =>
    obtain ⟨a, b⟩ := p
    simp only [keysOf, List.map_cons, List.nodup_cons] at h
    by_cases hac : a = c
    · subst hac
      have hrm : recordMax ((a, b) :: rest) a w = (a, max b w) :: rest := by
        simp [recordMax]
      rw [hrm]
      simp only [keysOf, List.map_cons, List.nodup_cons]
      exact ⟨h.1, h.2⟩
    · simp only [recordMax, if_neg hac, keysOf, List.map_cons, List.nodup_cons]
      refine ⟨fun hmem => ?_, ih h.2⟩
      rw [show (recordMax rest c w).map Prod.fst = keysOf (recordMax rest c w) from rfl,
        mem_keysOf_recordMax] at hmem
      rcases hmem with rfl | hmem
      · exact hac rfl
      · exact h.1 hmem

theorem lookupD_nonneg_recordMax (m : Neigh) (c : Nat) (w : ℚ)
    (h : ∀ x, 0 ≤ lookupD m x) (x : Nat) : 0 ≤ lookupD (recordMax m c w) x := by
  rw [lookupD_recordMax]
  by_cases hx : x = c
  · rw [if_pos hx]
    exact le_trans (h x) (le_max_left _ _)
  · rw [if_neg hx]
    exact h x

theorem alookup_dictSet_self (t : List (Option Nat × ℚ)) (k : Option Nat) (v : ℚ) :
    alookup (dictSet t k v) k = some v := by
  induction t with
  | nil => simp [dictSet, alookup]
  | cons p rest ih =>
    obtain ⟨a, b⟩ := p
    simp only [dictSet]
    by_cases hak : a = k
    · subst hak
      simp [alookup]
    · rw [if_neg hak]
      simp only [alookup]
      rw [if_neg hak]
      exact ih

theorem alookup_dictSet_ne (t : List (Option Nat × ℚ)) (k k' : Option Nat) (v : ℚ)
    (h : k' ≠ k) : alookup (dictSet t k v) k' = alookup t k' := by
  induction t with
  | nil =>
    simp only [dictSet, alookup]
    rw [if_neg (fun hk => h hk.symm)]
  | cons p rest ih =>
    obtain ⟨a, b⟩ := p
    simp only [dictSet]
    by_cases hak : a = k
    · subst hak
      simp only [alookup]
      rw [if_neg (fun hk => h hk.symm), if_neg (fun hk => h hk.symm)]
    · rw [if_neg hak]
      simp only [alookup]
      by_cases hak' : a = k'
      · rw [if_pos hak', if_pos hak']
      · rw [if_neg hak', if_neg hak']
        exact ih

/-! ### Equation lemmas for the expansion loops -/

@[simp]
theorem expandLoop_nil (cfg : Config) (store : Store) (fuel : Nat) (res : Neigh) :
    expandLoop cfg store fuel [] res = some res := by
  cases fuel <;> rfl

@[simp]
theorem expandLoop_zero (cfg : Config) (store : Store) (t : Entry) (ts : List Entry)
    (res : Neigh) : expandLoop cfg store 0 (t :: ts) res = none := rfl

theorem expandLoop_succ (cfg : Config) (store : Store) (fuel : Nat) (t : Entry)
    (ts : List Entry) (res : Neigh) :
    expandLoop cfg store (fuel + 1) (t :: ts) res =
      expandLoop cfg store fuel ((pushesOf cfg store t).reverse ++ ts)
        (recordMax res t.1 t.2.2) := rfl

@[simp]
theorem expandLoopAt_nil (cfg : Config) (store : Store) (sched : List Nat) (res : Neigh) :
    expandLoopAt cfg store sched [] res = some res := by
  cases sched <;> rfl

@[simp]
theorem expandLoopAt_none (cfg : Config) (store : Store) (t : Entry) (ts : List Entry)
    (res : Neigh) : expandLoopAt cfg store [] (t :: ts) res = none := rfl

theorem expandLoopAt_cons (cfg : Config) (store : Store) (i : Nat) (sched : List Nat)
    (t : Entry) (ts : List Entry) (res : Neigh) :
    expandLoopAt cfg store (i :: sched) (t :: ts) res =
      expandLoopAt cfg store sched
        ((pushesOf cfg store ((t :: ts).getD (i % (t :: ts).length) t)).reverse ++
          (t :: ts).eraseIdx (i % (t :: ts).length))
        (recordMax res ((t :: ts).getD (i % (t :: ts).length) t).1
          ((t :: ts).getD (i % (t :: ts).length) t).2.2) := rfl

theorem expandLoop_eq_expandLoopAt (cfg : Config) (store : Store) :
    ∀ (fuel : Nat) (todo : List Entry) (res : Neigh),
      expandLoop cfg store fuel todo res =
        expandLoopAt cfg store (List.replicate fuel 0) todo res := by
  intro fuel
  induction fuel with
  | zero =>
    intro todo res
    cases todo with
    | nil => simp
    | cons t ts => simp
  | succ fuel ih =>
    intro todo res
    cases todo with
    | nil => simp
    | cons t ts =>
      rw [List.replicate_succ, expandLoop_succ, expandLoopAt_cons]
      simp only [Nat.zero_mod, List.getD, List.eraseIdx]
      exact ih _ _

/-! ### List helpers for the scheduled loop -/

theorem getD_mem_of_lt {α : Type} : ∀ (l : List α) (j : Nat) (d : α), j < l.length →
    l.getD j d ∈ l := by
  intro l
  induction l with
  | nil => intro j d h; simp at h
  | cons a as ih =>
    intro j d h
    cases j with
    | zero => simp
    | succ j =>
      simp only [List.getD_cons_succ]
      exact List.mem_cons_of_mem a (ih j d (by simpa using h))

theorem mem_getD_or_eraseIdx {α : Type} : ∀ (l : List α) (j : Nat) (d : α), j < l.length →
    ∀ a ∈ l, a = l.getD j d ∨ a ∈ l.eraseIdx j := by
  intro l
  induction l with
  | nil => intro j d h; simp at h
  | cons x xs ih =>
    intro j d h a ha
    cases j with
    | zero =>
      rcases List.mem_cons.mp ha with rfl | ha
      · exact Or.inl rfl
      · exact Or.inr (by simpa [List.eraseIdx] using ha)
    | succ j =>
      rcases List.mem_cons.mp ha with rfl | ha
      · exact Or.inr (by simp [List.eraseIdx])
      · rcases ih j d (by simpa using h) a ha with h1 | h1
        · exact Or.inl (by simpa using h1)
        · exact Or.inr (List.mem_cons_of_mem x h1)

theorem eraseIdx_subset_self {α : Type} : ∀ (l : List α) (j : Nat), l.eraseIdx j ⊆ l := by
  intro l
  induction l with
  | nil => intro j; simp [List.eraseIdx]
  | cons x xs ih =>
    intro j
    cases j with
    | zero => exact fun a ha => List.mem_cons_of_mem _ ha
    | succ j =>
      simp only [List.eraseIdx]
      intro a ha
      rcases List.mem_cons.mp ha with rfl | ha
      · exact List.mem_cons_self _ _
      · exact List.mem_cons_of_mem _ (ih j ha)

theorem map_sum_getD_eraseIdx {α : Type} (f : α → ℕ) (d : α) :
    ∀ (l : List α) (j : Nat), j < l.length →
      (l.map f).sum = f (l.getD j d) + ((l.eraseIdx j).map f).sum := by
  intro l
  induction l with
  | nil => intro j h; simp at h
  | cons x xs ih =>
    intro j h
    cases j with
    | zero => simp [List.eraseIdx]
    | succ j =>
      simp only [List.map_cons, List.sum_cons, List.getD_cons_succ, List.eraseIdx]
      rw [ih j (by simpa using h)]
      omega

theorem lookupD_le_recordMax (m : Neigh) (c : Nat) (w : ℚ) (x : Nat) :
    lookupD m x ≤ lookupD (recordMax m c w) x := by
  rw [lookupD_recordMax]
  split
  · exact le_max_left _ _
  · exact le_rfl

theorem le_recordMax_self (m : Neigh) (c : Nat) (w : ℚ) :
    w ≤ lookupD (recordMax m c w) c := by
  rw [lookupD_recordMax, if_pos rfl]
  exact le_max_right _ _

/-! ### Invariants of the scheduled loop -/

theorem loopAt_mono (cfg : Config) (store : Store) :
    ∀ (sched : List Nat) (todo : List Entry) (res out : Neigh),
      expandLoopAt cfg store sched todo res = some out →
      (∀ x, lookupD res x ≤ lookupD out x) ∧ ∀ x, x ∈ keysOf res → x ∈ keysOf out := by
  intro sched
  induction sched with
  | nil =>
    intro todo res out h
    cases todo with
    | nil =>
      rw [expandLoopAt_nil] at h
      cases h
      exact ⟨fun x => le_rfl, fun x hx => hx⟩
    | cons t ts => rw [expandLoopAt_none] at h; cases h
  | cons i sched ih =>
    intro todo res out h
    cases todo with
    | nil =>
      rw [expandLoopAt_nil] at h
      cases h
      exact ⟨fun x => le_rfl, fun x hx => hx⟩
    | cons t ts =>
      rw [expandLoopAt_cons] at h
      obtain ⟨h1, h2⟩ := ih _ _ _ h
      refine ⟨fun x => le_trans (lookupD_le_recordMax _ _ _ _) (h1 x), fun x hx => ?_⟩
      exact h2 x ((mem_keysOf_recordMax _ _ _ _).mpr (Or.inr hx))

theorem loopAt_ge (cfg : Config) (store : Store) :
    ∀ (sched : List Nat) (todo : List Entry) (res out : Neigh),
      expandLoopAt cfg store sched todo res = some out →
      ∀ e ∈ todo, ∀ tgt : Entry, ReachStar cfg store e tgt →
        tgt.2.2 ≤ lookupD out tgt.1 ∧ tgt.1 ∈ keysOf out := by
  intro sched
  induction sched with
  | nil =>
    intro todo res out h e he tgt hr
    cases todo with
    | nil => simp at he
    | cons t ts => rw [expandLoopAt_none] at h; cases h
  | cons i sched ih =>
    intro todo res out h e he tgt hr
    cases todo with
    | nil => simp at he
    | cons t ts =>
      rw [expandLoopAt_cons] at h
      have hjlt : i % (t :: ts).length < (t :: ts).length :=
        Nat.mod_lt _ (by simp)
      rcases mem_getD_or_eraseIdx (t :: ts) (i % (t :: ts).length) t hjlt e he with heq | hmem
      · subst heq
        rcases Relation.ReflTransGen.cases_head hr with heq | ⟨m, hstep, hrest⟩
        · subst heq
          obtain ⟨h1, h2⟩ := loopAt_mono cfg store _ _ _ _ h
          constructor
          · exact le_trans (le_recordMax_self _ _ _) (h1 _)
          · exact h2 _ ((mem_keysOf_recordMax _ _ _ _).mpr (Or.inl rfl))
        · refine ih _ _ _ h m ?_ tgt hrest
          exact List.mem_append_left _ (List.mem_reverse.mpr hstep)
      · exact ih _ _ _ h e (List.mem_append_right _ hmem) tgt hr

theorem loopAt_le (cfg : Config) (store : Store) :
    ∀ (sched : List Nat) (todo : List Entry) (res out : Neigh),
      expandLoopAt cfg store sched todo res = some out →
      ∀ (c : Nat) (b : ℚ), lookupD res c ≤ b →
        (∀ e ∈ todo, ∀ d : Nat, ∀ w : ℚ, ReachStar cfg store e (c, d, w) → w ≤ b) →
        lookupD out c ≤ b := by
  intro sched
  induction sched with
  | nil =>
    intro todo res out h c b hres htodo
    cases todo with
    | nil => rw [expandLoopAt_nil] at h; cases h; exact hres
    | cons t ts => rw [expandLoopAt_none] at h; cases h
  | cons i sched ih =>
    intro todo res out h c b hres htodo
    cases todo with
    | nil => rw [expandLoopAt_nil] at h; cases h; exact hres
    | cons t ts =>
      rw [expandLoopAt_cons] at h
      have hjlt : i % (t :: ts).length < (t :: ts).length :=
        Nat.mod_lt _ (by simp)
      have he0 : (t :: ts).getD (i % (t :: ts).length) t ∈ t :: ts :=
        getD_mem_of_lt _ _ _ hjlt
      refine ih _ _ _ h c b ?_ ?_
      · rw [lookupD_recordMax]
        split
        · next hceq =>
          refine max_le hres ?_
          refine htodo _ he0 ((t :: ts).getD (i % (t :: ts).length) t).2.1
            ((t :: ts).getD (i % (t :: ts).length) t).2.2 ?_
          rw [hceq]
          exact Relation.ReflTransGen.refl
        · exact hres
      · intro e1 hmem d w hr
        rcases List.mem_append.mp hmem with hmem | hmem
        · exact htodo _ he0 d w (Relation.ReflTransGen.head (List.mem_reverse.mp hmem) hr)
        · exact htodo e1 (eraseIdx_subset_self _ _ hmem) d w hr

theorem loopAt_keys_le (cfg : Config) (store : Store) :
    ∀ (sched : List Nat) (todo : List Entry) (res out : Neigh),
      expandLoopAt cfg store sched todo res = some out →
      ∀ x ∈ keysOf out, x ∈ keysOf res ∨
        ∃ e ∈ todo, ∃ d : Nat, ∃ w : ℚ, ReachStar cfg store e (x, d, w) := by
  intro sched
  induction sched with
  | nil =>
    intro todo res out h x hx
    cases todo with
    | nil => rw [expandLoopAt_nil] at h; cases h; exact Or.inl hx
    | cons t ts => rw [expandLoopAt_none] at h; cases h
  | cons i sched ih =>
    intro todo res out h x hx
    cases todo with
    | nil => rw [expandLoopAt_nil] at h; cases h; exact Or.inl hx
    | cons t ts =>
      rw [expandLoopAt_cons] at h
      have hjlt : i % (t :: ts).length < (t :: ts).length :=
        Nat.mod_lt _ (by simp)
      have he0 : (t :: ts).getD (i % (t :: ts).length) t ∈ t :: ts :=
        getD_mem_of_lt _ _ _ hjlt
      rcases ih _ _ _ h x hx with hkeys | ⟨e1, hmem, d, w, hr⟩
      · rcases (mem_keysOf_recordMax _ _ _ _).mp hkeys with rfl | hkeys
        · exact Or.inr ⟨_, he0, ((t :: ts).getD (i % (t :: ts).length) t).2.1,
            ((t :: ts).getD (i % (t :: ts).length) t).2.2, Relation.ReflTransGen.refl⟩
        · exact Or.inl hkeys
      · rcases List.mem_append.mp hmem with hmem | hmem
        · exact Or.inr ⟨_, he0, d, w,
            Relation.ReflTransGen.head (List.mem_reverse.mp hmem) hr⟩
        · exact Or.inr ⟨e1, eraseIdx_subset_self _ _ hmem, d, w, hr⟩

theorem loopAt_nonneg (cfg : Config) (store : Store) :
    ∀ (sched : List Nat) (todo : List Entry) (res out : Neigh),
      expandLoopAt cfg store sched todo res = some out →
      (∀ x, 0 ≤ lookupD res x) → ∀ x, 0 ≤ lookupD out x := by
  intro sched
  induction sched with
  | nil =>
    intro todo res out h hres
    cases todo with
    | nil => rw [expandLoopAt_nil] at h; cases h; exact hres
    | cons t ts => rw [expandLoopAt_none] at h; cases h
  | cons i sched ih =>
    intro todo res out h hres
    cases todo with
    | nil => rw [expandLoopAt_nil] at h; cases h; exact hres
    | cons t ts =>
      rw [expandLoopAt_cons] at h
      exact ih _ _ _ h (lookupD_nonneg_recordMax _ _ _ hres)

theorem loopAt_nodup (cfg : Config) (store : Store) :
    ∀ (sched : List Nat) (todo : List Entry) (res out : Neigh),
      expandLoopAt cfg store sched todo res = some out →
      (keysOf res).Nodup → (keysOf out).Nodup := by
  intro sched
  induction sched with
  | nil =>
    intro todo res out h hres
    cases todo with
    | nil => rw [expandLoopAt_nil] at h; cases h; exact hres
    | cons t ts => rw [expandLoopAt_none] at h; cases h
  | cons i sched ih =>
    intro todo res out h hres
    cases todo with
    | nil => rw [expandLoopAt_nil] at h; cases h; exact hres
    | cons t ts =>
      rw [expandLoopAt_cons] at h
      exact ih _ _ _ h (nodup_keysOf_recordMax _ _ _ hres)

/-! ### Termination of the expansion on well-formed stores -/

theorem length_hierarchyRows_le (store : Store) (disc : Bool) (c : Nat) (maxd : ℤ) :
    (hierarchyRows store disc c maxd).length ≤ 2 * store.hierarchy.length := by
  unfold hierarchyRows
  split
  · calc _ ≤ _ := (List.dedup_sublist _).length_le
      _ ≤ 2 * store.hierarchy.length := by
        rw [List.length_append, List.length_map, List.length_map, two_mul]
        exact add_le_add (List.length_filter_le _ _) (List.length_filter_le _ _)
  · calc _ = _ := List.length_map _ _
      _ ≤ store.hierarchy.length := List.length_filter_le _ _
      _ ≤ 2 * store.hierarchy.length := by omega

theorem length_pushesOf_le (cfg : Config) (store : Store) (e : Entry) :
    (pushesOf cfg store e).length ≤ pushBound store := by
  have hex : ∀ maxd : ℤ, ((relationRows store e.1 maxd).filterMap (fun r =>
      let cw := e.2.2 * get_properties_weight cfg r.chain
      let cd := e.2.1 + r.distance
      if cd ≤ cfg.distance_threshold ∧ cfg.weight_threshold ≤ cw then some (r.stop, cd, cw)
      else none)).length ≤ store.existential.length := by
    intro maxd
    calc _ ≤ (relationRows store e.1 maxd).length := List.length_filterMap_le _ _
      _ ≤ _ := List.length_filter_le _ _
  unfold pushesOf pushBound
  split
  · exact le_trans (hex _) (Nat.le_add_right _ _)
  · rw [List.length_append]
    refine add_le_add (hex _) ?_
    calc _ ≤ (hierarchyRows store cfg.discover_subclasses e.1
          ((cfg.distance_threshold : ℤ) - (e.2.1 : ℤ))).length := List.length_filterMap_le _ _
      _ ≤ _ := length_hierarchyRows_le _ _ _ _

theorem hierarchyRows_distance (store : Store) (disc : Bool) (c : Nat) (maxd : ℤ)
    (rel : Nat × Nat) (h : rel ∈ hierarchyRows store disc c maxd) :
    ∃ row ∈ store.hierarchy, rel.2 = row.distance := by
  unfold hierarchyRows at h
  split at h
  · rw [List.mem_dedup] at h
    rcases List.mem_append.mp h with h | h <;>
      · obtain ⟨r, hr, rfl⟩ := List.mem_map.mp h
        exact ⟨r, (List.mem_filter.mp hr).1, rfl⟩
  · obtain ⟨r, hr, rfl⟩ := List.mem_map.mp h
    exact ⟨r, (List.mem_filter.mp hr).1, rfl⟩

theorem mem_pushesOf_dist (cfg : Config) (store : Store) (hwf : WFStore store)
    (e e' : Entry) (h : e' ∈ pushesOf cfg store e) :
    e.2.1 < e'.2.1 ∧ e'.2.1 ≤ cfg.distance_threshold := by
  have hex : ∀ maxd : ℤ, e' ∈ ((relationRows store e.1 maxd).filterMap (fun r =>
      let cw := e.2.2 * get_properties_weight cfg r.chain
      let cd := e.2.1 + r.distance
      if cd ≤ cfg.distance_threshold ∧ cfg.weight_threshold ≤ cw then some (r.stop, cd, cw)
      else none)) → e.2.1 < e'.2.1 ∧ e'.2.1 ≤ cfg.distance_threshold := by
    intro maxd hmem
    obtain ⟨r, hr, hf⟩ := List.mem_filterMap.mp hmem
    have hrstore : r ∈ store.existential := List.mem_of_mem_filter hr
    have hdist := hwf.1 r hrstore
    simp only at hf
    split at hf
    · next hcond =>
      cases hf
      exact ⟨show e.2.1 < e.2.1 + r.distance by omega, hcond.1⟩
    · cases hf
  have hhier : ∀ maxd : ℤ, e' ∈ ((hierarchyRows store cfg.discover_subclasses e.1
      maxd).filterMap (fun rel =>
      let cd := e.2.1 + rel.2
      let cw := e.2.2 * hierarchyWeight cfg ^ rel.2
      if cd ≤ cfg.distance_threshold ∧ cfg.weight_threshold ≤ cw then some (rel.1, cd, cw)
      else none)) → e.2.1 < e'.2.1 ∧ e'.2.1 ≤ cfg.distance_threshold := by
    intro maxd hmem
    obtain ⟨rel, hrel, hf⟩ := List.mem_filterMap.mp hmem
    obtain ⟨row, hrow, hrdist⟩ := hierarchyRows_distance store _ e.1 maxd rel hrel
    have hdist := hwf.2 row hrow
    simp only at hf
    split at hf
    · next hcond =>
      cases hf
      exact ⟨show e.2.1 < e.2.1 + rel.2 by omega, hcond.1⟩
    · cases hf
  unfold pushesOf at h
  simp only at h
  split at h
  · exact hex _ h
  · rcases List.mem_append.mp h with h | h
    · exact hex _ h
    · exact hhier _ h

theorem pushes_fuel_lt (cfg : Config) (store : Store) (hwf : WFStore store) (e : Entry) :
    todoFuel cfg store (pushesOf cfg store e) < entryFuel cfg store e.2.1 := by
  by_cases hne : pushesOf cfg store e = []
  · rw [hne]
    simp only [todoFuel, List.map_nil, List.sum_nil]
    exact pow_pos (Nat.succ_pos _) _
  · obtain ⟨p0, hp0⟩ := List.exists_mem_of_ne_nil _ hne
    have hd0 := mem_pushesOf_dist cfg store hwf e p0 hp0
    have hdlt : e.2.1 < cfg.distance_threshold := lt_of_lt_of_le hd0.1 hd0.2
    set P := pushBound store with hP
    have hbound : ∀ x ∈ (pushesOf cfg store e).map (fun p => entryFuel cfg store p.2.1),
        x ≤ (P + 1) ^ (cfg.distance_threshold - e.2.1) := by
      intro x hx
      obtain ⟨p, hp, rfl⟩ := List.mem_map.mp hx
      have h2 := mem_pushesOf_dist cfg store hwf e p hp
      unfold entryFuel
      exact Nat.pow_le_pow_right (Nat.succ_le_succ (Nat.zero_le _)) (by omega)
    have hsum : todoFuel cfg store (pushesOf cfg store e) ≤
        (pushesOf cfg store e).length * (P + 1) ^ (cfg.distance_threshold - e.2.1) := by
      unfold todoFuel
      calc _ ≤ ((pushesOf cfg store e).map (fun p => entryFuel cfg store p.2.1)).length •
            (P + 1) ^ (cfg.distance_threshold - e.2.1) := List.sum_le_card_nsmul _ _ hbound
        _ = _ := by rw [smul_eq_mul, List.length_map]
    have hXpos : 0 < (P + 1) ^ (cfg.distance_threshold - e.2.1) :=
      pow_pos (Nat.succ_pos _) _
    calc todoFuel cfg store (pushesOf cfg store e)
        ≤ (pushesOf cfg store e).length * (P + 1) ^ (cfg.distance_threshold - e.2.1) := hsum
      _ ≤ P * (P + 1) ^ (cfg.distance_threshold - e.2.1) :=
        Nat.mul_le_mul_right _ (length_pushesOf_le cfg store e)
      _ < (P + 1) * (P + 1) ^ (cfg.distance_threshold - e.2.1) :=
        Nat.mul_lt_mul_of_lt_of_le (Nat.lt_succ_self P) (le_refl _) hXpos
      _ = entryFuel cfg store e.2.1 := by
        unfold entryFuel
        rw [← hP, show cfg.distance_threshold + 1 - e.2.1 =
          (cfg.distance_threshold - e.2.1) + 1 by omega, pow_succ]
        ring

theorem step_fuel_lt (cfg : Config) (store : Store) (hwf : WFStore store)
    (todo : List Entry) (j : Nat) (hj : j < todo.length) (t : Entry) :
    todoFuel cfg store ((pushesOf cfg store (todo.getD j t)).reverse ++ todo.eraseIdx j) <
      todoFuel cfg store todo := by
  have hsplit : (todo.map (fun e : Entry => entryFuel cfg store e.2.1)).sum =
      entryFuel cfg store (todo.getD j t).2.1 +
        ((todo.eraseIdx j).map (fun e : Entry => entryFuel cfg store e.2.1)).sum :=
    map_sum_getD_eraseIdx (fun e : Entry => entryFuel cfg store e.2.1) t todo j hj
  have hpush := pushes_fuel_lt cfg store hwf (todo.getD j t)
  unfold todoFuel at hpush ⊢
  rw [List.map_append, List.sum_append, List.map_reverse, List.sum_reverse, hsplit]
  omega

theorem loopAt_isSome (cfg : Config) (store : Store) (hwf : WFStore store) :
    ∀ (sched : List Nat) (todo : List Entry) (res : Neigh),
      todoFuel cfg store todo ≤ sched.length →
      (expandLoopAt cfg store sched todo res).isSome := by
  intro sched
  induction sched with
  | nil =>
    intro todo res h
    cases todo with
    | nil => simp
    | cons t ts =>
      exfalso
      have hpos : 0 < entryFuel cfg store t.2.1 := pow_pos (Nat.succ_pos _) _
      simp only [todoFuel, List.map_cons, List.sum_cons, List.length_nil] at h
      omega
  | cons i sched ih =>
    intro todo res h
    cases todo with
    | nil => simp
    | cons t ts =>
      rw [expandLoopAt_cons]
      apply ih
      have hlt := step_fuel_lt cfg store hwf (t :: ts) (i % (t :: ts).length)
        (Nat.mod_lt _ (by simp)) t
      have h2 : todoFuel cfg store (t :: ts) ≤ sched.length + 1 := by simpa using h
      omega

theorem expandLoop_isSome (cfg : Config) (store : Store) (hwf : WFStore store)
    (fuel : Nat) (todo : List Entry) (res : Neigh)
    (h : todoFuel cfg store todo ≤ fuel) : (expandLoop cfg store fuel todo res).isSome := by
  rw [expandLoop_eq_expandLoopAt]
  exact loopAt_isSome cfg store hwf _ todo res (by simpa using h)

theorem faw_run (cfg : Config) (store : Store) (chain : List Nat) (hwf : WFStore store) :
    expandLoop cfg store (entryFuel cfg store (seedOf cfg chain).2.1)
        [seedOf cfg chain] [] = some (find_and_weigh_neighbors cfg store chain) := by
  have h := expandLoop_isSome cfg store hwf (entryFuel cfg store (seedOf cfg chain).2.1)
    [seedOf cfg chain] [] (by simp [todoFuel])
  cases hrun : expandLoop cfg store (entryFuel cfg store (seedOf cfg chain).2.1)
      [seedOf cfg chain] [] with
  | none => rw [hrun] at h; cases h
  | some v => simp [find_and_weigh_neighbors, hrun]

theorem faw_nodup (cfg : Config) (store : Store) (chain : List Nat) :
    (keysOf (find_and_weigh_neighbors cfg store chain)).Nodup := by
  have hz : find_and_weigh_neighbors cfg store chain =
      (expandLoop cfg store (entryFuel cfg store (seedOf cfg chain).2.1)
        [seedOf cfg chain] []).getD [] := rfl
  rw [hz]
  cases hrun : expandLoop cfg store (entryFuel cfg store (seedOf cfg chain).2.1)
      [seedOf cfg chain] [] with
  | none => simp [keysOf]
  | some v =>
    rw [expandLoop_eq_expandLoopAt] at hrun
    simpa using loopAt_nodup cfg store _ _ _ _ hrun (by simp [keysOf])

theorem faw_nonneg (cfg : Config) (store : Store) (chain : List Nat) (x : Nat) :
    0 ≤ lookupD (find_and_weigh_neighbors cfg store chain) x := by
  have hz : find_and_weigh_neighbors cfg store chain =
      (expandLoop cfg store (entryFuel cfg store (seedOf cfg chain).2.1)
        [seedOf cfg chain] []).getD [] := rfl
  rw [hz]
  cases hrun : expandLoop cfg store (entryFuel cfg store (seedOf cfg chain).2.1)
      [seedOf cfg chain] [] with
  | none => simp [lookupD, alookup]
  | some v =>
    rw [expandLoop_eq_expandLoopAt] at hrun
    simpa using loopAt_nonneg cfg store _ _ _ _ hrun
      (fun y => le_of_eq rfl) x

/-! ### Semantic characterization of a single-chain expansion -/

theorem faw_ge (cfg : Config) (store : Store) (chain : List Nat) (hwf : WFStore store)
    (tgt : Entry) (h : ReachStar cfg store (seedOf cfg chain) tgt) :
    tgt.2.2 ≤ lookupD (find_and_weigh_neighbors cfg store chain) tgt.1 ∧
      tgt.1 ∈ keysOf (find_and_weigh_neighbors cfg store chain) := by
  have hrun := faw_run cfg store chain hwf
  rw [expandLoop_eq_expandLoopAt] at hrun
  exact loopAt_ge cfg store _ _ _ _ hrun _ (List.mem_singleton.mpr rfl) tgt h

theorem faw_le (cfg : Config) (store : Store) (chain : List Nat) (hwf : WFStore store)
    (c : Nat) (b : ℚ) (hb : 0 ≤ b)
    (h : ∀ d : Nat, ∀ w : ℚ, ReachStar cfg store (seedOf cfg chain) (c, d, w) → w ≤ b) :
    lookupD (find_and_weigh_neighbors cfg store chain) c ≤ b := by
  have hrun := faw_run cfg store chain hwf
  rw [expandLoop_eq_expandLoopAt] at hrun
  refine loopAt_le cfg store _ _ _ _ hrun c b ?_ ?_
  · simpa [lookupD, alookup] using hb
  · intro e he d w hr
    rw [List.mem_singleton] at he
    subst he
    exact h d w hr

theorem faw_keys (cfg : Config) (store : Store) (chain : List Nat) (hwf : WFStore store)
    (c : Nat) (h : c ∈ keysOf (find_and_weigh_neighbors cfg store chain)) :
    ∃ d : Nat, ∃ w : ℚ, ReachStar cfg store (seedOf cfg chain) (c, d, w) := by
  have hrun := faw_run cfg store chain hwf
  rw [expandLoop_eq_expandLoopAt] at hrun
  rcases loopAt_keys_le cfg store _ _ _ _ hrun c h with hk | ⟨e, he, d, w, hr⟩
  · simp [keysOf] at hk
  · rw [List.mem_singleton] at he
    subst he
    exact ⟨d, w, hr⟩

/-! ### Merging the chains of one item -/

theorem qmax_nonneg (l : List ℚ) : 0 ≤ qmax l := by
  induction l with
  | nil => exact le_refl 0
  | cons a l ih => exact le_trans ih (le_max_right a (qmax l))

theorem le_qmax_of_mem {l : List ℚ} {a : ℚ} (h : a ∈ l) : a ≤ qmax l := by
  induction l with
  | nil => cases h
  | cons b l ih =>
    rcases List.mem_cons.mp h with rfl | h
    · exact le_max_left _ _
    · exact le_trans (ih h) (le_max_right _ _)

theorem qmax_le {l : List ℚ} {b : ℚ} (hb : 0 ≤ b) (h : ∀ a ∈ l, a ≤ b) : qmax l ≤ b := by
  induction l with
  | nil => exact hb
  | cons a l ih =>
    exact max_le (h a (List.mem_cons_self a l)) (ih fun x hx => h x (List.mem_cons_of_mem a hx))

theorem qmax_eq_qmax_of_subsets {α : Type} (f : α → ℚ) {l1 l2 : List α}
    (h12 : l1 ⊆ l2) (h21 : l2 ⊆ l1) : qmax (l1.map f) = qmax (l2.map f) := by
  have haux : ∀ (la lb : List α), la ⊆ lb → qmax (la.map f) ≤ qmax (lb.map f) := by
    intro la lb hab
    refine qmax_le (qmax_nonneg _) ?_
    intro a ha
    obtain ⟨x, hx, rfl⟩ := List.mem_map.mp ha
    exact le_qmax_of_mem (List.mem_map.mpr ⟨x, hab hx, rfl⟩)
  exact le_antisymm (haux l1 l2 h12) (haux l2 l1 h21)

theorem lookupD_foldRecord (m : Neigh) :
    ∀ (res : Neigh), (keysOf m).Nodup → (∀ y, 0 ≤ lookupD res y) →
      ∀ x, lookupD (m.foldl (fun r p => recordMax r p.1 p.2) res) x =
        max (lookupD res x) (lookupD m x) := by
  induction m with
  | nil =>
    intro res hm hres x
    simp only [List.foldl_nil]
    have h0 : lookupD [] x = 0 := rfl
    rw [h0, max_eq_left (hres x)]
  | cons p rest ih =>
    intro res hm hres x
    obtain ⟨c, w⟩ := p
    simp only [keysOf, List.map_cons, List.nodup_cons] at hm
    simp only [List.foldl_cons]
    rw [ih (recordMax res c w) hm.2 (lookupD_nonneg_recordMax _ _ _ hres)]
    rw [lookupD_recordMax]
    by_cases hx : x = c
    · subst hx
      rw [if_pos rfl]
      have hrest : lookupD rest x = 0 := lookupD_eq_zero_of_not_mem _ _ hm.1
      have hm0 : lookupD ((x, w) :: rest) x = w := by
        simp [lookupD, alookup]
      rw [hrest, hm0, max_eq_left]
      exact le_trans (hres x) (le_trans (le_max_left _ _) (le_refl _))
    · rw [if_neg hx]
      have hm1 : lookupD ((c, w) :: rest) x = lookupD rest x := by
        simp only [lookupD, alookup]
        rw [if_neg (fun h => hx h.symm)]
      rw [hm1]

theorem foldRecord_nodup (m : Neigh) :
    ∀ res : Neigh, (keysOf res).Nodup →
      (keysOf (m.foldl (fun r p => recordMax r p.1 p.2) res)).Nodup := by
  induction m with
  | nil => intro res h; exact h
  | cons p rest ih =>
    intro res h
    simp only [List.foldl_cons]
    exact ih _ (nodup_keysOf_recordMax _ _ _ h)

theorem foldRecord_nonneg (m : Neigh) :
    ∀ res : Neigh, (∀ y, 0 ≤ lookupD res y) →
      ∀ x, 0 ≤ lookupD (m.foldl (fun r p => recordMax r p.1 p.2) res) x := by
  induction m with
  | nil => intro res h; exact h
  | cons p rest ih =>
    intro res h
    simp only [List.foldl_cons]
    exact ih _ (lookupD_nonneg_recordMax _ _ _ h)

theorem lookupD_construct (cfg : Config) (store : Store) (chains : List (List Nat)) (x : Nat) :
    lookupD (construct_neighborhood cfg store chains) x =
      qmax (chains.map (fun ch => lookupD (find_and_weigh_neighbors cfg store ch) x)) := by
  have haux : ∀ (cs : List (List Nat)) (res : Neigh), (∀ y, 0 ≤ lookupD res y) →
      lookupD (cs.foldl (fun r ch =>
          (find_and_weigh_neighbors cfg store ch).foldl (fun r p => recordMax r p.1 p.2) r) res) x =
        max (lookupD res x)
          (qmax (cs.map (fun ch => lookupD (find_and_weigh_neighbors cfg store ch) x))) := by
    intro cs
    induction cs with
    | nil =>
      intro res hres
      simp only [List.foldl_nil, List.map_nil]
      rw [show qmax [] = 0 from rfl, max_eq_left (hres x)]
    | cons ch rest ih =>
      intro res hres
      simp only [List.foldl_cons, List.map_cons]
      rw [ih _ (foldRecord_nonneg _ _ hres)]
      rw [lookupD_foldRecord _ res (faw_nodup cfg store ch) hres x]
      rw [show qmax (lookupD (find_and_weigh_neighbors cfg store ch) x ::
        rest.map (fun ch => lookupD (find_and_weigh_neighbors cfg store ch) x)) =
        max (lookupD (find_and_weigh_neighbors cfg store ch) x)
          (qmax (rest.map (fun ch => lookupD (find_and_weigh_neighbors cfg store ch) x)))
        from rfl]
      rw [max_assoc]
  unfold construct_neighborhood
  rw [haux chains [] (fun y => le_refl 0)]
  rw [show lookupD [] x = 0 from rfl, max_eq_right (qmax_nonneg _)]

theorem construct_nodup (cfg : Config) (store : Store) (chains : List (List Nat)) :
    (keysOf (construct_neighborhood cfg store chains)).Nodup := by
  have haux : ∀ (cs : List (List Nat)) (res : Neigh), (keysOf res).Nodup →
      (keysOf (cs.foldl (fun r ch =>
        (find_and_weigh_neighbors cfg store ch).foldl (fun r p => recordMax r p.1 p.2) r) res)).Nodup := by
    intro cs
    induction cs with
    | nil => intro res h; exact h
    | cons ch rest ih =>
      intro res h
      simp only [List.foldl_cons]
      exact ih _ (foldRecord_nodup _ _ h)
  exact haux chains [] (by simp [keysOf])

theorem construct_nonneg (cfg : Config) (store : Store) (chains : List (List Nat)) (x : Nat) :
    0 ≤ lookupD (construct_neighborhood cfg store chains) x := by
  rw [lookupD_construct]
  exact qmax_nonneg _

theorem lookupD_construct_eq_of_subsets (cfg : Config) (store : Store)
    {chains1 chains2 : List (List Nat)} (h12 : chains1 ⊆ chains2) (h21 : chains2 ⊆ chains1)
    (x : Nat) :
    lookupD (construct_neighborhood cfg store chains1) x =
      lookupD (construct_neighborhood cfg store chains2) x := by
  rw [lookupD_construct, lookupD_construct]
  exact qmax_eq_qmax_of_subsets _ h12 h21

/-! ### The fuzzy set combiner as finite sums -/

theorem lookupD_of_mem (m : Neigh) (h : (keysOf m).Nodup) :
    ∀ {c : Nat} {w : ℚ}, (c, w) ∈ m → lookupD m c = w := by
  induction m with
  | nil => intro c w hmem; cases hmem
  | cons p rest ih =>
    intro c w hmem
    obtain ⟨a, b⟩ := p
    simp only [keysOf, List.map_cons, List.nodup_cons] at h
    rcases List.mem_cons.mp hmem with heq | hmem
    · cases heq
      simp [lookupD, alookup]
    · have hc : c ∈ keysOf rest := List.mem_map.mpr ⟨(c, w), hmem, rfl⟩
      have hac : a ≠ c := fun hac => h.1 (hac ▸ hc)
      simp only [lookupD, alookup]
      rw [if_neg hac]
      exact ih h.2 hmem

theorem inter_eq_sum (n1 n2 : Neigh) (h1 : (keysOf n1).Nodup) (s : Finset Nat)
    (hs : ∀ c ∈ keysOf n1, c ∈ s) :
    inter n1 n2 = ∑ c in s, lookupD n1 c * lookupD n2 c := by
  have step1 : inter n1 n2 = ((keysOf n1).map (fun c => lookupD n1 c * lookupD n2 c)).sum := by
    unfold inter keysOf
    rw [List.map_map]
    refine congrArg List.sum (List.map_congr_left ?_)
    intro p hp
    have : lookupD n1 p.1 = p.2 := lookupD_of_mem n1 h1 hp
    simp [Function.comp, this]
  rw [step1, ← List.sum_toFinset _ h1]
  refine Finset.sum_subset ?_ ?_
  · intro c hc
    exact hs c (List.mem_toFinset.mp hc)
  · intro c _ hc
    rw [lookupD_eq_zero_of_not_mem n1 c (fun hmem => hc (List.mem_toFinset.mpr hmem))]
    exact zero_mul _

theorem union_eq_sum (n1 n2 : Neigh) (s : Finset Nat)
    (hs1 : ∀ c ∈ keysOf n1, c ∈ s) (hs2 : ∀ c ∈ keysOf n2, c ∈ s) :
    union n1 n2 = ∑ c in s,
      (lookupD n1 c + lookupD n2 c - lookupD n1 c * lookupD n2 c) := by
  have hnodup : (unionKeys n1 n2).Nodup := List.nodup_dedup _
  unfold union
  rw [← List.sum_toFinset _ hnodup]
  refine Finset.sum_subset ?_ ?_
  · intro c hc
    have := List.mem_toFinset.mp hc
    unfold unionKeys at this
    rcases List.mem_append.mp (List.mem_dedup.mp this) with h | h
    · exact hs1 c h
    · exact hs2 c h
  · intro c _ hc
    have hmem : c ∉ unionKeys n1 n2 := fun h => hc (List.mem_toFinset.mpr h)
    unfold unionKeys at hmem
    rw [List.mem_dedup, List.mem_append] at hmem
    push_neg at hmem
    rw [lookupD_eq_zero_of_not_mem n1 c hmem.1, lookupD_eq_zero_of_not_mem n2 c hmem.2]
    ring

theorem inter_symm (n1 n2 : Neigh) (h1 : (keysOf n1).Nodup) (h2 : (keysOf n2).Nodup) :
    inter n1 n2 = inter n2 n1 := by
  have hs1 : ∀ c ∈ keysOf n1, c ∈ (keysOf n1 ++ keysOf n2).toFinset := by
    intro c hc
    exact List.mem_toFinset.mpr (List.mem_append_left _ hc)
  have hs2 : ∀ c ∈ keysOf n2, c ∈ (keysOf n1 ++ keysOf n2).toFinset := by
    intro c hc
    exact List.mem_toFinset.mpr (List.mem_append_right _ hc)
  rw [inter_eq_sum n1 n2 h1 _ hs1, inter_eq_sum n2 n1 h2 _ hs2]
  exact Finset.sum_congr rfl fun c _ => mul_comm _ _

theorem union_symm (n1 n2 : Neigh) : union n1 n2 = union n2 n1 := by
  have hs1 : ∀ c ∈ keysOf n1, c ∈ (keysOf n1 ++ keysOf n2).toFinset := by
    intro c hc
    exact List.mem_toFinset.mpr (List.mem_append_left _ hc)
  have hs2 : ∀ c ∈ keysOf n2, c ∈ (keysOf n1 ++ keysOf n2).toFinset := by
    intro c hc
    exact List.mem_toFinset.mpr (List.mem_append_right _ hc)
  rw [union_eq_sum n1 n2 _ hs1 hs2, union_eq_sum n2 n1 _ hs2 hs1]
  exact Finset.sum_congr rfl fun c _ => by ring

theorem lookupD_mem_bounds (m : Neigh) (hm : ∀ p ∈ m, 0 ≤ p.2 ∧ p.2 ≤ 1) (c : Nat) :
    0 ≤ lookupD m c ∧ lookupD m c ≤ 1 := by
  induction m with
  | nil =>
    rw [show lookupD [] c = 0 from rfl]
    norm_num
  | cons p rest ih =>
    obtain ⟨a, b⟩ := p
    by_cases hac : a = c
    · subst hac
      have := hm (a, b) (List.mem_cons_self _ _)
      simpa [lookupD, alookup] using this
    · have h1 : lookupD ((a, b) :: rest) c = lookupD rest c := by
        simp only [lookupD, alookup]
        rw [if_neg hac]
      rw [h1]
      exact ih fun p hp => hm p (List.mem_cons_of_mem _ hp)

theorem inter_nonneg_le_union (n1 n2 : Neigh)
    (h1 : (keysOf n1).Nodup)
    (hb1 : ∀ p ∈ n1, 0 ≤ p.2 ∧ p.2 ≤ 1) (hb2 : ∀ p ∈ n2, 0 ≤ p.2 ∧ p.2 ≤ 1) :
    0 ≤ inter n1 n2 ∧ inter n1 n2 ≤ union n1 n2 := by
  have hs1 : ∀ c ∈ keysOf n1, c ∈ (keysOf n1 ++ keysOf n2).toFinset := by
    intro c hc
    exact List.mem_toFinset.mpr (List.mem_append_left _ hc)
  have hs2 : ∀ c ∈ keysOf n2, c ∈ (keysOf n1 ++ keysOf n2).toFinset := by
    intro c hc
    exact List.mem_toFinset.mpr (List.mem_append_right _ hc)
  rw [inter_eq_sum n1 n2 h1 _ hs1, union_eq_sum n1 n2 _ hs1 hs2]
  constructor
  · refine Finset.sum_nonneg fun c _ => ?_
    exact mul_nonneg (lookupD_mem_bounds n1 hb1 c).1 (lookupD_mem_bounds n2 hb2 c).1
  · refine Finset.sum_le_sum fun c _ => ?_
    obtain ⟨ha0, ha1⟩ := lookupD_mem_bounds n1 hb1 c
    obtain ⟨hb0, hb1'⟩ := lookupD_mem_bounds n2 hb2 c
    nlinarith [mul_nonneg ha0 hb0]

/-! ### Helpers for the input-conversion and comparison pipeline -/

@[simp]
theorem error_bind {A B : Type} (e : Err) (k : A → Except Err B) :
    (Except.error e >>= k) = Except.error e := rfl

@[simp]
theorem ok_bind {A B : Type} (a : A) (k : A → Except Err B) :
    (Except.ok a >>= k) = k a := rfl

theorem mapME_ok_of_mem {A B : Type} (f : A → Except Err B) :
    ∀ (l : List A) (out : List B), mapME f l = Except.ok out →
      ∀ x ∈ l, ∃ y, f x = Except.ok y := by
  intro l
  induction l with
  | nil => intro out h x hx; cases hx
  | cons a as ih =>
    intro out h x hx
    rw [mapME] at h
    cases hfa : f a with
    | error e => rw [hfa] at h; rw [error_bind] at h; cases h
    | ok b =>
      rw [hfa, ok_bind] at h
      cases has : mapME f as with
      | error e => rw [has] at h; rw [error_bind] at h; cases h
      | ok bs =>
        rcases List.mem_cons.mp hx with rfl | hx
        · exact ⟨b, hfa⟩
        · exact ih bs has x hx

theorem get_id_ok_isStr (env : Env) (kind : EntityKind) (v : PyVal) (i : Nat)
    (h : get_id env kind v = Except.ok i) : isStr v = true := by
  cases v with
  | str s => rfl
  | list l => cases h
  | int n => cases h

theorem chain_to_ids_ok_isStr (env : Env) (chain : List PyVal) (ids : List Nat)
    (h : chain_to_ids env chain = Except.ok ids) : ∀ y ∈ chain, isStr y = true := by
  unfold chain_to_ids at h
  cases hlast : chain.getLast? with
  | none => rw [hlast] at h; cases h
  | some concept =>
    rw [hlast] at h
    have hne : chain ≠ [] := by
      intro hnil
      rw [hnil] at hlast
      cases hlast
    have h2 : (do
        let props ← mapME (get_id env .objectProperty) chain.dropLast
        let c ← get_id env .concept concept
        pure (props ++ [c]) : Except Err (List Nat)) = Except.ok ids := h
    clear h
    cases hprops : mapME (get_id env .objectProperty) chain.dropLast with
    | error e => rw [hprops, error_bind] at h2; cases h2
    | ok props =>
      rw [hprops, ok_bind] at h2
      cases hc : get_id env .concept concept with
      | error e => rw [hc, error_bind] at h2; cases h2
      | ok cid =>
        intro y hy
        have hdecomp : chain.dropLast ++ [chain.getLast hne] = chain :=
          List.dropLast_append_getLast hne
        have hconcept : concept = chain.getLast hne := by
          have := List.getLast?_eq_getLast chain hne
          rw [hlast] at this
          exact Option.some.inj this
        rw [← hdecomp] at hy
        rcases List.mem_append.mp hy with hy | hy
        · obtain ⟨z, hz⟩ := mapME_ok_of_mem _ _ _ hprops y hy
          exact get_id_ok_isStr env _ y z hz
        · rw [List.mem_singleton] at hy
          subst hy
          rw [← hconcept]
          exact get_id_ok_isStr env _ concept cid hc

theorem mem_key_lookupD (m : Neigh) (c : Nat) (h : c ∈ keysOf m) :
    (c, lookupD m c) ∈ m := by
  induction m with
  | nil => cases h
  | cons p rest ih =>
    obtain ⟨a, b⟩ := p
    by_cases hac : a = c
    · subst hac
      have hl : lookupD ((a, b) :: rest) a = b := by
        simp [lookupD, alookup]
      rw [hl]
      exact List.mem_cons_self _ _
    · have h1 : lookupD ((a, b) :: rest) c = lookupD rest c := by
        simp only [lookupD, alookup]
        rw [if_neg hac]
      rw [h1]
      have hc : c ∈ keysOf rest := by
        simp only [keysOf, List.map_cons, List.mem_cons] at h
        rcases h with rfl | h
        · exact absurd rfl hac
        · exact h
      exact List.mem_cons_of_mem _ (ih hc)

theorem mem_hierarchyRows_iff (store : Store) (disc : Bool) (c : Nat) (maxd : ℤ)
    (r dist : Nat) :
    (r, dist) ∈ hierarchyRows store disc c maxd ↔
      (if disc then
        ((⟨c, r, dist⟩ : HRow) ∈ store.hierarchy ∧ dist = 1) ∨
          ((⟨r, c, dist⟩ : HRow) ∈ store.hierarchy ∧ (dist : ℤ) ≤ maxd)
      else ((⟨c, r, dist⟩ : HRow) ∈ store.hierarchy ∧ (dist : ℤ) ≤ maxd)) := by
  unfold hierarchyRows
  split
  · next hdisc =>
    rw [List.mem_dedup, List.mem_append]
    constructor
    · rintro (h | h)
      · obtain ⟨row, hrow, heq⟩ := List.mem_map.mp h
        obtain ⟨hmem, hcond⟩ := List.mem_filter.mp hrow
        rw [decide_eq_true_eq] at hcond
        obtain ⟨h1, h2⟩ := hcond
        obtain ⟨h3, h4⟩ := Prod.mk.injEq .. ▸ heq
        subst h1 h3 h4
        exact Or.inl ⟨hmem, h2⟩
      · obtain ⟨row, hrow, heq⟩ := List.mem_map.mp h
        obtain ⟨hmem, hcond⟩ := List.mem_filter.mp hrow
        rw [decide_eq_true_eq] at hcond
        obtain ⟨h1, h2⟩ := hcond
        obtain ⟨h3, h4⟩ := Prod.mk.injEq .. ▸ heq
        subst h1 h3 h4
        exact Or.inr ⟨hmem, h2⟩
    · rintro (⟨hmem, h1⟩ | ⟨hmem, h2⟩)
      · refine Or.inl (List.mem_map.mpr ⟨⟨c, r, dist⟩, ?_, rfl⟩)
        exact List.mem_filter.mpr ⟨hmem, by rw [decide_eq_true_eq]; exact ⟨rfl, h1⟩⟩
      · refine Or.inr (List.mem_map.mpr ⟨⟨r, c, dist⟩, ?_, rfl⟩)
        exact List.mem_filter.mpr ⟨hmem, by rw [decide_eq_true_eq]; exact ⟨rfl, h2⟩⟩
  · next hdisc =>
    constructor
    · intro h
      obtain ⟨row, hrow, heq⟩ := List.mem_map.mp h
      obtain ⟨hmem, hcond⟩ := List.mem_filter.mp hrow
      rw [decide_eq_true_eq] at hcond
      obtain ⟨h1, h2⟩ := hcond
      obtain ⟨h3, h4⟩ := Prod.mk.injEq .. ▸ heq
      subst h1 h3 h4
      exact ⟨hmem, h2⟩
    · rintro ⟨hmem, h1⟩
      refine List.mem_map.mpr ⟨⟨c, r, dist⟩, ?_, rfl⟩
      exact List.mem_filter.mpr ⟨hmem, by rw [decide_eq_true_eq]; exact ⟨rfl, h1⟩⟩

theorem compare_eq_of_ok (env : Env) (cfg : Config) (store : Store) (one two : PyVal)
    (ch1 ch2 : List (List Nat))
    (h1 : convert_input env one = Except.ok ch1) (h2 : convert_input env two = Except.ok ch2) :
    compare env cfg store one two =
      (if union (construct_neighborhood cfg store ch1) (construct_neighborhood cfg store ch2) = 0
       then Except.error Err.zeroDivisionError
       else Except.ok (inter (construct_neighborhood cfg store ch1)
          (construct_neighborhood cfg store ch2) /
        union (construct_neighborhood cfg store ch1) (construct_neighborhood cfg store ch2))) := by
  unfold compare
  rw [h1, ok_bind, h2, ok_bind]
  rfl

/-! ### Membership characterization of the pushed entries -/

theorem mem_relationRows_iff (store : Store) (c : Nat) (maxd : ℤ) (r : ExRow) :
    r ∈ relationRows store c maxd ↔
      r ∈ store.existential ∧ (r.start = c ∧ (r.distance : ℤ) ≤ maxd) := by
  unfold relationRows
  rw [List.mem_filter, decide_eq_true_eq]

theorem mem_pushesOf_elim (cfg : Config) (store : Store) (e e' : Entry)
    (h : e' ∈ pushesOf cfg store e) :
    (∃ r ∈ store.existential, r.start = e.1 ∧
        (r.distance : ℤ) ≤ (cfg.distance_threshold : ℤ) - (e.2.1 : ℤ) ∧
        e.2.1 + r.distance ≤ cfg.distance_threshold ∧
        cfg.weight_threshold ≤ e.2.2 * get_properties_weight cfg r.chain ∧
        e' = (r.stop, e.2.1 + r.distance, e.2.2 * get_properties_weight cfg r.chain)) ∨
      (hierarchyWeight cfg ≠ 0 ∧
        ∃ rel ∈ hierarchyRows store cfg.discover_subclasses e.1
            ((cfg.distance_threshold : ℤ) - (e.2.1 : ℤ)),
          e.2.1 + rel.2 ≤ cfg.distance_threshold ∧
          cfg.weight_threshold ≤ e.2.2 * hierarchyWeight cfg ^ rel.2 ∧
          e' = (rel.1, e.2.1 + rel.2, e.2.2 * hierarchyWeight cfg ^ rel.2)) := by
  have hex : ∀ maxd : ℤ, e' ∈ ((relationRows store e.1 maxd).filterMap (fun r =>
      let cw := e.2.2 * get_properties_weight cfg r.chain
      let cd := e.2.1 + r.distance
      if cd ≤ cfg.distance_threshold ∧ cfg.weight_threshold ≤ cw then some (r.stop, cd, cw)
      else none)) →
      ∃ r ∈ store.existential, r.start = e.1 ∧ (r.distance : ℤ) ≤ maxd ∧
        e.2.1 + r.distance ≤ cfg.distance_threshold ∧
        cfg.weight_threshold ≤ e.2.2 * get_properties_weight cfg r.chain ∧
        e' = (r.stop, e.2.1 + r.distance, e.2.2 * get_properties_weight cfg r.chain) := by
    intro maxd hmem
    obtain ⟨r, hr, hf⟩ := List.mem_filterMap.mp hmem
    obtain ⟨hrs, hstart, hdist⟩ := (mem_relationRows_iff store e.1 maxd r).mp hr
    simp only at hf
    split at hf
    · next hcond =>
      cases hf
      exact ⟨r, hrs, hstart, hdist, hcond.1, hcond.2, rfl⟩
    · cases hf
  have hhier : e' ∈ ((hierarchyRows store cfg.discover_subclasses e.1
      ((cfg.distance_threshold : ℤ) - (e.2.1 : ℤ))).filterMap (fun rel =>
      let cd := e.2.1 + rel.2
      let cw := e.2.2 * hierarchyWeight cfg ^ rel.2
      if cd ≤ cfg.distance_threshold ∧ cfg.weight_threshold ≤ cw then some (rel.1, cd, cw)
      else none)) →
      ∃ rel ∈ hierarchyRows store cfg.discover_subclasses e.1
          ((cfg.distance_threshold : ℤ) - (e.2.1 : ℤ)),
        e.2.1 + rel.2 ≤ cfg.distance_threshold ∧
        cfg.weight_threshold ≤ e.2.2 * hierarchyWeight cfg ^ rel.2 ∧
        e' = (rel.1, e.2.1 + rel.2, e.2.2 * hierarchyWeight cfg ^ rel.2) := by
    intro hmem
    obtain ⟨rel, hrel, hf⟩ := List.mem_filterMap.mp hmem
    simp only at hf
    split at hf
    · next hcond =>
      cases hf
      exact ⟨rel, hrel, hcond.1, hcond.2, rfl⟩
    · cases hf
  unfold pushesOf at h
  simp only at h
  split at h
  · exact Or.inl (hex _ h)
  · next hne =>
    rcases List.mem_append.mp h with h | h
    · exact Or.inl (hex _ h)
    · exact Or.inr ⟨hne, hhier h⟩

theorem mem_pushesOf_intro_ex (cfg : Config) (store : Store) (e : Entry) (r : ExRow)
    (hr : r ∈ store.existential) (hstart : r.start = e.1)
    (hdist : (r.distance : ℤ) ≤ (cfg.distance_threshold : ℤ) - (e.2.1 : ℤ))
    (hcd : e.2.1 + r.distance ≤ cfg.distance_threshold)
    (hcw : cfg.weight_threshold ≤ e.2.2 * get_properties_weight cfg r.chain) :
    (r.stop, e.2.1 + r.distance, e.2.2 * get_properties_weight cfg r.chain) ∈
      pushesOf cfg store e := by
  have hmem : (r.stop, e.2.1 + r.distance, e.2.2 * get_properties_weight cfg r.chain) ∈
      ((relationRows store e.1 ((cfg.distance_threshold : ℤ) - (e.2.1 : ℤ))).filterMap (fun r =>
      let cw := e.2.2 * get_properties_weight cfg r.chain
      let cd := e.2.1 + r.distance
      if cd ≤ cfg.distance_threshold ∧ cfg.weight_threshold ≤ cw then some (r.stop, cd, cw)
      else none)) := by
    refine List.mem_filterMap.mpr ⟨r, ?_, ?_⟩
    · exact (mem_relationRows_iff store e.1 _ r).mpr ⟨hr, hstart, hdist⟩
    · simp only
      rw [if_pos ⟨hcd, hcw⟩]
  unfold pushesOf
  simp only
  split
  · exact hmem
  · exact List.mem_append_left _ hmem

theorem mem_pushesOf_intro_hier (cfg : Config) (store : Store) (e : Entry)
    (hne : hierarchyWeight cfg ≠ 0) (rel : Nat × Nat)
    (hrel : rel ∈ hierarchyRows store cfg.discover_subclasses e.1
      ((cfg.distance_threshold : ℤ) - (e.2.1 : ℤ)))
    (hcd : e.2.1 + rel.2 ≤ cfg.distance_threshold)
    (hcw : cfg.weight_threshold ≤ e.2.2 * hierarchyWeight cfg ^ rel.2) :
    (rel.1, e.2.1 + rel.2, e.2.2 * hierarchyWeight cfg ^ rel.2) ∈ pushesOf cfg store e := by
  have hmem : (rel.1, e.2.1 + rel.2, e.2.2 * hierarchyWeight cfg ^ rel.2) ∈
      ((hierarchyRows store cfg.discover_subclasses e.1
        ((cfg.distance_threshold : ℤ) - (e.2.1 : ℤ))).filterMap (fun rel =>
      let cd := e.2.1 + rel.2
      let cw := e.2.2 * hierarchyWeight cfg ^ rel.2
      if cd ≤ cfg.distance_threshold ∧ cfg.weight_threshold ≤ cw then some (rel.1, cd, cw)
      else none)) := by
    refine List.mem_filterMap.mpr ⟨rel, hrel, ?_⟩
    simp only
    rw [if_pos ⟨hcd, hcw⟩]
  unfold pushesOf
  simp only
  rw [if_neg hne]
  exact List.mem_append_right _ hmem

theorem pushesOf_mono_thresholds (cfg : Config) (store : Store)
    (dtS dtL : Nat) (wtS wtL : ℚ) (hdt : dtS ≤ dtL) (hwt : wtL ≤ wtS) (e e' : Entry)
    (h : e' ∈ pushesOf { cfg with distance_threshold := dtS, weight_threshold := wtS } store e) :
    e' ∈ pushesOf { cfg with distance_threshold := dtL, weight_threshold := wtL } store e := by
  have eS : ({ cfg with distance_threshold := dtS, weight_threshold := wtS } :
      Config).distance_threshold = dtS := rfl
  have eS2 : ({ cfg with distance_threshold := dtS, weight_threshold := wtS } :
      Config).weight_threshold = wtS := rfl
  have eL : ({ cfg with distance_threshold := dtL, weight_threshold := wtL } :
      Config).distance_threshold = dtL := rfl
  have eL2 : ({ cfg with distance_threshold := dtL, weight_threshold := wtL } :
      Config).weight_threshold = wtL := rfl
  rcases mem_pushesOf_elim _ store e e' h with
    ⟨r, hr, hstart, hdist, hcd, hcw, rfl⟩ | ⟨hne, rel, hrel, hcd, hcw, rfl⟩
  · rw [eS] at hdist hcd
    rw [eS2] at hcw
    refine mem_pushesOf_intro_ex
      { cfg with distance_threshold := dtL, weight_threshold := wtL } store e r hr hstart ?_ ?_ ?_
    · rw [eL]
      omega
    · rw [eL]
      omega
    · rw [eL2]
      exact le_trans hwt hcw
  · rw [eS] at hcd
    rw [eS2] at hcw
    refine mem_pushesOf_intro_hier
      { cfg with distance_threshold := dtL, weight_threshold := wtL } store e hne rel ?_ ?_ ?_
    · have hiff := mem_hierarchyRows_iff store cfg.discover_subclasses e.1
        ((dtS : ℤ) - (e.2.1 : ℤ)) rel.1 rel.2
      have hiff2 := mem_hierarchyRows_iff store cfg.discover_subclasses e.1
        ((dtL : ℤ) - (e.2.1 : ℤ)) rel.1 rel.2
      have hrelS : (rel.1, rel.2) ∈ hierarchyRows store cfg.discover_subclasses e.1
          ((dtS : ℤ) - (e.2.1 : ℤ)) := hrel
      have hrel2 := hiff.mp hrelS
      rw [eL]
      show (rel.1, rel.2) ∈ hierarchyRows store cfg.discover_subclasses e.1
        ((dtL : ℤ) - (e.2.1 : ℤ))
      apply hiff2.mpr
      split at hrel2 <;> split
      · rcases hrel2 with h1 | ⟨hmem, hdd⟩
        · exact Or.inl h1
        · exact Or.inr ⟨hmem, by omega⟩
      · next hd1 hd2 => exact absurd hd1 hd2
      · next hd1 hd2 => exact absurd hd2 hd1
      · obtain ⟨hmem, hdd⟩ := hrel2
        exact ⟨hmem, by omega⟩
    · rw [eL]
      omega
    · rw [eL2]
      exact le_trans hwt hcw

/-! ### The claims -/

/-- Claim C2, counterexample: in the store whose only hierarchy row says
concept 0 has superclass 5 at distance 2, an expansion entry for
concept 0 with remaining budget 2 and `discoverSubclasses` enabled does
not retrieve that superclass, although its distance is within the
budget — the discover-mode query limits superclasses to distance
exactly 1. -/
theorem claim_C2_counterexample :
    (⟨0, 5, 2⟩ : HRow) ∈ hierStore.hierarchy ∧ ((2 : Nat) : ℤ) ≤ (2 : ℤ) ∧
      (5, 2) ∉ hierarchyRows hierStore true 0 2 := by
  decide

/-- Claim C2, amended: for an expansion entry `e = (c, d, w)` with
remaining budget `distanceThreshold - d`, the hierarchy query retrieves
superclasses at every distance within the budget only when
`discoverSubclasses` is disabled; when it is enabled, superclasses are
retrieved only at distance exactly 1, while subclasses are retrieved at
every distance within the budget. -/
theorem claim_C2 (cfg : Config) (store : Store) (e : Entry) (r dist : Nat) :
    (r, dist) ∈ hierarchyRows store cfg.discover_subclasses e.1
        ((cfg.distance_threshold : ℤ) - (e.2.1 : ℤ)) ↔
      (if cfg.discover_subclasses then
        ((⟨e.1, r, dist⟩ : HRow) ∈ store.hierarchy ∧ dist = 1) ∨
          ((⟨r, e.1, dist⟩ : HRow) ∈ store.hierarchy ∧
            (dist : ℤ) ≤ (cfg.distance_threshold : ℤ) - (e.2.1 : ℤ))
      else ((⟨e.1, r, dist⟩ : HRow) ∈ store.hierarchy ∧
        (dist : ℤ) ≤ (cfg.distance_threshold : ℤ) - (e.2.1 : ℤ))) :=
  mem_hierarchyRows_iff store cfg.discover_subclasses e.1 _ r dist

/-- Claim C4: on a well-formed store (every edge distance ≥ 1) the
expansion terminates for every chain and every configuration: each
pushed frontier entry has strictly greater distance than the entry it
was derived from and stays within `distance_threshold`, and the
reference loop completes within the computed fuel bound. -/
theorem claim_C4 (cfg : Config) (store : Store) (chain : List Nat) (hwf : WFStore store) :
    (∀ e e' : Entry, e' ∈ pushesOf cfg store e →
      e.2.1 < e'.2.1 ∧ e'.2.1 ≤ cfg.distance_threshold) ∧
    (expandLoop cfg store (entryFuel cfg store (seedOf cfg chain).2.1)
        [seedOf cfg chain] []).isSome :=
  ⟨fun e e' h => mem_pushesOf_dist cfg store hwf e e' h,
   expandLoop_isSome cfg store hwf _ _ _ (by simp [todoFuel])⟩

/-- Claim C4 witness at a concrete store and configuration. -/
theorem claim_C4_witness :
    WFStore mossyStore ∧
      (expandLoop mossyCfg mossyStore
        (entryFuel mossyCfg mossyStore (seedOf mossyCfg [0]).2.1)
        [seedOf mossyCfg [0]] []).isSome :=
  ⟨by decide, (claim_C4 mossyCfg mossyStore [0] (by decide)).2⟩

/-- Claim C10: for every non-empty chain, the expansion records the
chain's terminal concept with at least its initial weight (the
property-weight product times the information content), regardless of
the thresholds — the seed entry bypasses the admission test. -/
theorem claim_C10 (cfg : Config) (store : Store) (chain : List Nat)
    (hne : chain ≠ []) (hwf : WFStore store) :
    chain.getLastD 0 ∈ keysOf (find_and_weigh_neighbors cfg store chain) ∧
      get_properties_weight cfg chain.dropLast * get_ic cfg (chain.getLastD 0) ≤
        lookupD (find_and_weigh_neighbors cfg store chain) (chain.getLastD 0) := by
  have h := faw_ge cfg store chain hwf (seedOf cfg chain) Relation.ReflTransGen.refl
  exact ⟨h.2, h.1⟩

/-- Claim C10 witness: a chain whose two properties exceed the distance
threshold 1 and whose weight 49/100 is below the weight threshold 2 is
still recorded at its terminal concept. -/
theorem claim_C10_witness :
    ([7, 7, 0] : List Nat) ≠ [] ∧ WFStore mossyStore ∧
      (([7, 7, 0] : List Nat).getLastD 0 ∈
          keysOf (find_and_weigh_neighbors strictCfg mossyStore [7, 7, 0]) ∧
        get_properties_weight strictCfg ([7, 7, 0] : List Nat).dropLast *
            get_ic strictCfg (([7, 7, 0] : List Nat).getLastD 0) ≤
          lookupD (find_and_weigh_neighbors strictCfg mossyStore [7, 7, 0])
            (([7, 7, 0] : List Nat).getLastD 0)) :=
  ⟨by decide, by decide, claim_C10 strictCfg mossyStore [7, 7, 0] (by decide) (by decide)⟩

/-- Claim C8: with the store and all weight configuration fixed, making
the thresholds stricter — a larger `weight_threshold` or a smaller
`distance_threshold` — never adds a key to a chain's expansion: every
key reachable under the strict thresholds is also reachable under the
looser ones. -/
theorem claim_C8 (cfg : Config) (store : Store) (chain : List Nat) (hwf : WFStore store)
    (dtS dtL : Nat) (wtS wtL : ℚ) (hdt : dtS ≤ dtL) (hwt : wtL ≤ wtS) (c : Nat)
    (hc : c ∈ keysOf (find_and_weigh_neighbors
      { cfg with distance_threshold := dtS, weight_threshold := wtS } store chain)) :
    c ∈ keysOf (find_and_weigh_neighbors
      { cfg with distance_threshold := dtL, weight_threshold := wtL } store chain) := by
  obtain ⟨d, w, hr⟩ := faw_keys _ store chain hwf c hc
  have hr2 : Relation.ReflTransGen
      (StepsTo { cfg with distance_threshold := dtS, weight_threshold := wtS } store)
      (seedOf { cfg with distance_threshold := dtS, weight_threshold := wtS } chain)
      (c, d, w) := hr
  have hmono : Relation.ReflTransGen
      (StepsTo { cfg with distance_threshold := dtL, weight_threshold := wtL } store)
      (seedOf { cfg with distance_threshold := dtS, weight_threshold := wtS } chain)
      (c, d, w) :=
    Relation.ReflTransGen.mono
      (fun a b hab => pushesOf_mono_thresholds cfg store dtS dtL wtS wtL hdt hwt a b hab) hr2
  exact (faw_ge _ store chain hwf (c, d, w) hmono).2

/-- Claim C8 witness: the key 0 survives when the distance threshold is
raised from 0 back to 3. -/
theorem claim_C8_witness :
    WFStore mossyStore ∧ (0 : Nat) ≤ 3 ∧ (3/10 : ℚ) ≤ 3/10 ∧
      0 ∈ keysOf (find_and_weigh_neighbors
        { mossyCfg with distance_threshold := 0, weight_threshold := 3/10 } mossyStore [0]) ∧
      0 ∈ keysOf (find_and_weigh_neighbors
        { mossyCfg with distance_threshold := 3, weight_threshold := 3/10 } mossyStore [0]) :=
  ⟨by decide, by decide, le_refl _, by with_unfolding_all decide,
    claim_C8 mossyCfg mossyStore [0] (by decide) 0 3 (3/10) (3/10) (by decide)
      (le_refl _) 0 (by with_unfolding_all decide)⟩

/-- Claim C5: on a well-formed store, any terminating traversal order of
the work list (any schedule of the generalized loop) produces exactly
the concept-to-weight mapping of the reference last-in-first-out
expansion. -/
theorem claim_C5 (cfg : Config) (store : Store) (chain : List Nat) (hwf : WFStore store)
    (sched : List Nat) (out : Neigh)
    (hrun : expandLoopAt cfg store sched [seedOf cfg chain] [] = some out) (c : Nat) :
    lookupD out c = lookupD (find_and_weigh_neighbors cfg store chain) c := by
  apply le_antisymm
  · refine loopAt_le cfg store _ _ _ _ hrun c _ ?_ ?_
    · rw [show lookupD [] c = 0 from rfl]
      exact faw_nonneg cfg store chain c
    · intro e he d w hr
      rw [List.mem_singleton] at he
      subst he
      exact (faw_ge cfg store chain hwf (c, d, w) hr).1
  · refine faw_le cfg store chain hwf c _ ?_ ?_
    · exact loopAt_nonneg cfg store _ _ _ _ hrun (fun y => le_of_eq rfl) c
    · intro d w hr
      exact (loopAt_ge cfg store _ _ _ _ hrun _ (List.mem_singleton.mpr rfl) (c, d, w) hr).1

/-- Claim C5 witness: a concrete non-reference schedule yields the same
mapping as the reference expansion. -/
theorem claim_C5_witness :
    WFStore mossyStore ∧
      expandLoopAt mossyCfg mossyStore [1, 0] [seedOf mossyCfg [0]] [] =
        some [(0, 1), (1, 4/5)] ∧
      lookupD [(0, 1), (1, 4/5)] 1 =
        lookupD (find_and_weigh_neighbors mossyCfg mossyStore [0]) 1 :=
  ⟨by decide, by with_unfolding_all decide,
    claim_C5 mossyCfg mossyStore [0] (by decide) [1, 0] [(0, 1), (1, 4/5)]
      (by with_unfolding_all decide) 1⟩

/-- Claim C7: for neighborhoods (distinct keys) whose weights lie in
[0, 1], the fuzzy intersection is between 0 and the fuzzy union, and the
similarity ratio lies in [0, 1] whenever the union is strictly
positive. -/
theorem claim_C7 (n1 n2 : Neigh) (h1 : (keysOf n1).Nodup) (h2 : (keysOf n2).Nodup)
    (hb1 : ∀ p ∈ n1, 0 ≤ p.2 ∧ p.2 ≤ 1) (hb2 : ∀ p ∈ n2, 0 ≤ p.2 ∧ p.2 ≤ 1) :
    (0 ≤ inter n1 n2 ∧ inter n1 n2 ≤ union n1 n2) ∧
      (0 < union n1 n2 →
        0 ≤ inter n1 n2 / union n1 n2 ∧ inter n1 n2 / union n1 n2 ≤ 1) := by
  obtain ⟨hnn, hle⟩ := inter_nonneg_le_union n1 n2 h1 hb1 hb2
  refine ⟨⟨hnn, hle⟩, fun hpos => ⟨div_nonneg hnn hpos.le, ?_⟩⟩
  rw [div_le_one hpos]
  exact hle

/-- Claim C7 witness at two concrete neighborhoods. -/
theorem claim_C7_witness :
    (keysOf [(0, 1), (1, 1/2)]).Nodup ∧ (keysOf [(1, 1/3)]).Nodup ∧
      (∀ p ∈ ([(0, 1), (1, 1/2)] : Neigh), 0 ≤ p.2 ∧ p.2 ≤ 1) ∧
      (∀ p ∈ ([(1, 1/3)] : Neigh), 0 ≤ p.2 ∧ p.2 ≤ 1) ∧
      ((0 ≤ inter [(0, 1), (1, 1/2)] [(1, 1/3)] ∧
          inter [(0, 1), (1, 1/2)] [(1, 1/3)] ≤ union [(0, 1), (1, 1/2)] [(1, 1/3)]) ∧
        (0 < union [(0, 1), (1, 1/2)] [(1, 1/3)] →
          0 ≤ inter [(0, 1), (1, 1/2)] [(1, 1/3)] / union [(0, 1), (1, 1/2)] [(1, 1/3)] ∧
            inter [(0, 1), (1, 1/2)] [(1, 1/3)] / union [(0, 1), (1, 1/2)] [(1, 1/3)] ≤ 1)) :=
  ⟨by decide, by decide, by with_unfolding_all decide, by with_unfolding_all decide,
    claim_C7 [(0, 1), (1, 1/2)] [(1, 1/3)] (by decide) (by decide)
      (by with_unfolding_all decide) (by with_unfolding_all decide)⟩

/-- Claim C1, counterexample: an item compared with itself under the
source's default thresholds, over a store with one hierarchy edge of
weight 4/5, scores 41/49, not 1 — identical chain sets do not give
similarity 1 for every configuration. -/
theorem claim_C1_counterexample :
    compare mossyEnv mossyCfg mossyStore (PyVal.str "A") (PyVal.str "A") =
        Except.ok (41/49) ∧ (41/49 : ℚ) ≠ 1 :=
  ⟨by with_unfolding_all rfl, by norm_num⟩

/-- Claim C1, amended: when two items normalize to the same chain set,
their neighborhoods coincide, and the similarity is exactly 1 provided
every membership weight of the common neighborhood is 0 or 1 and the
union is nonzero; with intermediate weights strictly between 0 and 1
the ratio falls below 1. -/
theorem claim_C1 (env : Env) (cfg : Config) (store : Store) (one two : PyVal)
    (ch1 ch2 : List (List Nat))
    (h1 : convert_input env one = Except.ok ch1) (h2 : convert_input env two = Except.ok ch2)
    (h12 : ch1 ⊆ ch2) (h21 : ch2 ⊆ ch1)
    (hvals : ∀ p ∈ construct_neighborhood cfg store ch1, p.2 = 0 ∨ p.2 = 1)
    (hu : union (construct_neighborhood cfg store ch1)
      (construct_neighborhood cfg store ch2) ≠ 0) :
    compare env cfg store one two = Except.ok 1 := by
  have hpt : ∀ x, lookupD (construct_neighborhood cfg store ch1) x =
      lookupD (construct_neighborhood cfg store ch2) x :=
    fun x => lookupD_construct_eq_of_subsets cfg store h12 h21 x
  have hl1 : ∀ x, lookupD (construct_neighborhood cfg store ch1) x = 0 ∨
      lookupD (construct_neighborhood cfg store ch1) x = 1 := by
    intro x
    by_cases hx : x ∈ keysOf (construct_neighborhood cfg store ch1)
    · exact hvals _ (mem_key_lookupD _ x hx)
    · exact Or.inl (lookupD_eq_zero_of_not_mem _ x hx)
  have hs1 : ∀ c ∈ keysOf (construct_neighborhood cfg store ch1),
      c ∈ (keysOf (construct_neighborhood cfg store ch1) ++
        keysOf (construct_neighborhood cfg store ch2)).toFinset :=
    fun c hc => List.mem_toFinset.mpr (List.mem_append_left _ hc)
  have hs2 : ∀ c ∈ keysOf (construct_neighborhood cfg store ch2),
      c ∈ (keysOf (construct_neighborhood cfg store ch1) ++
        keysOf (construct_neighborhood cfg store ch2)).toFinset :=
    fun c hc => List.mem_toFinset.mpr (List.mem_append_right _ hc)
  have hiu : inter (construct_neighborhood cfg store ch1)
      (construct_neighborhood cfg store ch2) =
      union (construct_neighborhood cfg store ch1) (construct_neighborhood cfg store ch2) := by
    rw [inter_eq_sum _ _ (construct_nodup cfg store ch1) _ hs1,
      union_eq_sum _ _ _ hs1 hs2]
    refine Finset.sum_congr rfl fun c _ => ?_
    rw [← hpt c]
    rcases hl1 c with h0 | h1'
    · rw [h0]
      ring
    · rw [h1']
      ring
  rw [compare_eq_of_ok env cfg store one two ch1 ch2 h1 h2, if_neg hu, hiu]
  exact congrArg Except.ok (div_self hu)

/-- Claim C1 amended, witness: with every configured weight equal to 1
the common neighborhood of "A" (given once as a string and once as a
one-element list) has weights 1 only, and the similarity is exactly
1. -/
theorem claim_C1_witness :
    convert_input mossyEnv (PyVal.str "A") = Except.ok [[0]] ∧
      convert_input mossyEnv (PyVal.list [PyVal.str "A"]) = Except.ok [[0]] ∧
      (∀ p ∈ construct_neighborhood onesCfg mossyStore [[0]], p.2 = 0 ∨ p.2 = 1) ∧
      union (construct_neighborhood onesCfg mossyStore [[0]])
          (construct_neighborhood onesCfg mossyStore [[0]]) ≠ 0 ∧
      compare mossyEnv onesCfg mossyStore (PyVal.str "A") (PyVal.list [PyVal.str "A"]) =
        Except.ok 1 :=
  ⟨by with_unfolding_all rfl, by with_unfolding_all rfl,
    by with_unfolding_all decide, by with_unfolding_all decide,
    claim_C1 mossyEnv onesCfg mossyStore (PyVal.str "A") (PyVal.list [PyVal.str "A"])
      [[0]] [[0]] (by with_unfolding_all rfl) (by with_unfolding_all rfl)
      (List.Subset.refl _) (List.Subset.refl _)
      (by with_unfolding_all decide) (by with_unfolding_all decide)⟩

/-- Claim C6: the comparison is symmetric — for any two items that both
normalize successfully, `compare` returns the same result in either
order, because the fuzzy intersection and union are symmetric in their
arguments. -/
theorem claim_C6 (env : Env) (cfg : Config) (store : Store) (one two : PyVal)
    (ch1 ch2 : List (List Nat))
    (h1 : convert_input env one = Except.ok ch1)
    (h2 : convert_input env two = Except.ok ch2) :
    compare env cfg store one two = compare env cfg store two one := by
  rw [compare_eq_of_ok env cfg store one two ch1 ch2 h1 h2,
    compare_eq_of_ok env cfg store two one ch2 ch1 h2 h1,
    inter_symm _ _ (construct_nodup cfg store ch1) (construct_nodup cfg store ch2),
    union_symm]

/-- Claim C6 witness at two distinct concrete items. -/
theorem claim_C6_witness :
    convert_input mossyEnv (PyVal.str "A") = Except.ok [[0]] ∧
      convert_input mossyEnv (PyVal.str "B") = Except.ok [[1]] ∧
      compare mossyEnv mossyCfg mossyStore (PyVal.str "A") (PyVal.str "B") =
        compare mossyEnv mossyCfg mossyStore (PyVal.str "B") (PyVal.str "A") :=
  ⟨by with_unfolding_all rfl, by with_unfolding_all rfl,
    claim_C6 mossyEnv mossyCfg mossyStore (PyVal.str "A") (PyVal.str "B") [[0]] [[1]]
      (by with_unfolding_all rfl) (by with_unfolding_all rfl)⟩

/-- Claim C3, counterexample: supplying the frequency-derivation
directive through the `property_weights` option does not populate the
weight table — construction fails with Python's attribute error when the
directive object is iterated as a mapping. -/
theorem claim_C3_counterexample :
    ferreira_init (fun _ => 0) mossyEnv mossyStore none 3 (3/10)
        (some (PWArg.logScale 0 1)) (DWArg.scalar (7/10)) (4/5) false =
      Except.error Err.attributeError := rfl

/-- Claim C3, amended: the frequency-derivation directive is supplied
through the `default_weight` option, not `property_weights`: when
`default_weight` is a LogScale directive (and no explicit property
mapping is given), the weight table is populated from
`LogScale.get_weights`, the scalar default weight becomes 0, and the
hierarchy sentinel is stored last. -/
theorem claim_C3 (logf : Nat → ℚ) (env : Env) (store : Store) (ic : Option (Nat → ℚ))
    (dt : Nat) (wt mn mx hw : ℚ) (disc : Bool) :
    ∃ cfg : Config,
      ferreira_init logf env store ic dt wt none (DWArg.logScale mn mx) hw disc =
          Except.ok cfg ∧
        cfg.default_weight = 0 ∧
        alookup cfg.property_weights none = some hw ∧
        ∀ p : Nat, alookup cfg.property_weights (some p) =
          alookup (LogScale_get_weights logf store mn mx) (some p) := by
  refine ⟨_, rfl, rfl, alookup_dictSet_self _ _ _, fun p => ?_⟩
  exact alookup_dictSet_ne _ none (some p) hw (Option.some_ne_none p)

/-- Claim C9, counterexample: a non-iterable item (the integer 0) is
outside every accepted input shape, and normalization fails with
Python's TypeError — not with a dedicated InvalidInputShape error
kind. -/
theorem claim_C9_counterexample :
    convert_input mossyEnv (PyVal.int 0) = Except.error Err.typeError ∧
      Err.typeError ≠ Err.invalidInputShape :=
  ⟨rfl, by decide⟩

/-- Claim C9, amended: every item outside the accepted shapes makes
input normalization fail with an error surfaced to the caller — it is
never silently recovered into chains — but the error kind is the
underlying runtime error (a type error for non-string non-list values,
an index error for an empty chain), not a single dedicated
InvalidInputShape kind. -/
theorem claim_C9 (env : Env) (item : PyVal) (h : validShape item = false) :
    ∀ out, convert_input env item ≠ Except.ok out := by
  intro out hout
  cases item with
  | str s => rw [show validShape (PyVal.str s) = true from rfl] at h; cases h
  | int n => cases hout
  | list xs =>
    have hex : ∃ x ∈ xs, validElem x = false := by
      rw [show validShape (PyVal.list xs) = xs.all validElem from rfl] at h
      rw [← Bool.not_eq_true, List.all_eq_true] at h
      push_neg at h
      obtain ⟨x, hx, hbad⟩ := h
      exact ⟨x, hx, Bool.not_eq_true _ ▸ hbad⟩
    obtain ⟨x, hx, hbad⟩ := hex
    obtain ⟨ids, hids⟩ := mapME_ok_of_mem (chain_to_ids env) (xs.map to_seq) out hout
      (to_seq x) (List.mem_map.mpr ⟨x, hx, rfl⟩)
    cases x with
    | str s => rw [show validElem (PyVal.str s) = true from rfl] at hbad; cases hbad
    | int n =>
      rw [show to_seq (PyVal.int n) = [PyVal.int n] from rfl,
        show chain_to_ids env [PyVal.int n] = Except.error Err.typeError from rfl] at hids
      cases hids
    | list l =>
      rw [show to_seq (PyVal.list l) = l from rfl] at hids
      by_cases hl : l = []
      · subst hl
        rw [show chain_to_ids env [] = Except.error Err.indexError from rfl] at hids
        cases hids
      · have hne : l.isEmpty = false := by
          cases l with
          | nil => exact absurd rfl hl
          | cons a as => rfl
        rw [show validElem (PyVal.list l) = (!l.isEmpty && l.all isStr) from rfl, hne] at hbad
        have hstr : l.all isStr = false := by
          cases hall : l.all isStr with
          | false => rfl
          | true => rw [hall] at hbad; cases hbad
        have hexy : ∃ y ∈ l, isStr y = false := by
          rw [← Bool.not_eq_true, List.all_eq_true] at hstr
          push_neg at hstr
          obtain ⟨y, hy, hbady⟩ := hstr
          exact ⟨y, hy, Bool.not_eq_true _ ▸ hbady⟩
        obtain ⟨y, hy, hbady⟩ := hexy
        have hall := chain_to_ids_ok_isStr env l ids hids y hy
        rw [hall] at hbady
        cases hbady

/-- Claim C9 amended, witness: the integer 0 has no valid shape and its
normalization does not produce chains. -/
theorem claim_C9_witness :
    validShape (PyVal.int 0) = false ∧
      convert_input mossyEnv (PyVal.int 0) ≠ Except.ok [] :=
  ⟨rfl, claim_C9 mossyEnv (PyVal.int 0) rfl []⟩

end Mossy
